import Mathlib

/-!
# Verification of the medical-report analyzer core (`src/app.py`)

This file gives a shallow embedding of the text-processing core of the
analyzer: the PII redaction pass (`deidentify_text`), the keyword /
vitals / date / dosage extractors, the risk-hint rules
(`generate_risk_hints`), the highlighting pass (escape + `wrap_terms`),
and the per-document analysis loop, together with theorems settling the
frozen claims about them.

Strings are modelled as `List Char` internally (with `String` wrappers at
the interface).  The regular-expression substitutions and `findall` calls
of the source are embedded as explicit scanners: each scanner walks the
text position by position, attempting at each position a hand-translated
backtracking match of the concrete pattern, replacing (or recording)
non-overlapping matches left to right, exactly as Python `re.sub` /
`re.findall` behave on these patterns.  Character classes follow the
ASCII semantics of the patterns involved (`\w` = letters, digits,
underscore; `\s` = space, tab, newline, carriage return, form feed,
vertical tab).
-/

namespace MedApp

/-! ## Character classes and basic helpers -/

/-- Python regex word character (`\w`), ASCII fragment: letter, digit or underscore. -/
def isPyWord (c : Char) : Bool :=
  c.isAlphanum || c = '_'

/-- Python regex whitespace (`\s`), ASCII fragment. -/
def isPySpace (c : Char) : Bool :=
  c = ' ' || c = '\t' || c = '\n' || c = '\r' || c = '\x0b' || c = '\x0c'

/-- Word-ness of an optional character (string edges count as non-word). -/
def isPyWordOpt : Option Char → Bool
  | none => false
  | some c => isPyWord c

/-- A word boundary (`\b`) holds between two (optional) characters iff exactly
one of them is a word character. -/
def pyBoundary (a b : Option Char) : Bool :=
  isPyWordOpt a != isPyWordOpt b

/-- `(?m)^` holds at a position iff it is the start of the text or the previous
character is a newline. -/
def lineStart : Option Char → Bool
  | none => true
  | some c => c = '\n'

/-- ASCII lowercasing of a character (Python `str.lower` on ASCII input). -/
def pyLowerChar (c : Char) : Char := c.toLower

/-- ASCII lowercasing of a text. -/
def pyLower (l : List Char) : List Char := l.map pyLowerChar

/-- Case-insensitive literal prefix test: `pat` (stored lowercase) matches the
start of `s` up to ASCII case. -/
def ciIsPrefixOf : List Char → List Char → Bool
  | [], _ => true
  | _ :: _, [] => false
  | p :: ps, c :: cs => p = pyLowerChar c && ciIsPrefixOf ps cs

/-- Substring containment (Python `needle in hay`). -/
def containsSub (hay needle : List Char) : Bool :=
  hay.tails.any (fun t => needle.isPrefixOf t)

/-- Length of the maximal prefix of `s` whose characters satisfy `p`. -/
def countWhile (p : Char → Bool) (s : List Char) : Nat :=
  (s.takeWhile p).length

/-! ## Python string ordering and `sorted(set(...))` -/

/-- Lexicographic code-point order on character lists (Python `<` on `str`). -/
def listLt : List Char → List Char → Bool
  | _, [] => false
  | [], _ :: _ => true
  | a :: as, b :: bs =>
    if a.toNat < b.toNat then true
    else if b.toNat < a.toNat then false
    else listLt as bs

theorem char_toNat_inj {a b : Char} (h : a.toNat = b.toNat) : a = b :=
  Char.ext (UInt32.ext h)

/-- Python string order. -/
def pyStrLt (a b : String) : Bool := listLt a.data b.data

/-- Insert a string into a strictly sorted duplicate-free list, keeping it
strictly sorted and duplicate-free. -/
def insertSorted (x : String) : List String → List String
  | [] => [x]
  | y :: ys =>
    if x = y then y :: ys
    else if pyStrLt x y then x :: y :: ys
    else y :: insertSorted x ys

/-- Python `sorted(set(l))`: the strictly increasing enumeration of the set of
elements of `l`. -/
def pySortedSet (l : List String) : List String :=
  l.foldr insertSorted []

theorem mem_insertSorted (x : String) (l : List String) (y : String) :
    y ∈ insertSorted x l ↔ y = x ∨ y ∈ l := by
  induction l with
  | nil => simp [insertSorted]
  | cons z zs ih =>
    simp only [insertSorted]
    split_ifs with h1 h2
    · subst h1; simp only [List.mem_cons]; tauto
    · simp only [List.mem_cons]
    · simp only [List.mem_cons, ih]; tauto

theorem mem_pySortedSet (l : List String) (y : String) :
    y ∈ pySortedSet l ↔ y ∈ l := by
  induction l with
  | nil => simp [pySortedSet]
  | cons z zs ih =>
    simp only [pySortedSet, List.foldr_cons] at *
    rw [mem_insertSorted, ih, List.mem_cons]

theorem listLt_irrefl (l : List Char) : listLt l l = false := by
  induction l with
  | nil => rfl
  | cons c cs ih => simp [listLt, ih]

theorem listLt_trans {a b c : List Char} :
    listLt a b = true → listLt b c = true → listLt a c = true := by
  induction a generalizing b c with
  | nil =>
    intro _ h2
    cases c with
    | nil => cases b with
      | nil => simp [listLt] at h2
      | cons y ys => simp [listLt] at h2
    | cons z zs => simp [listLt]
  | cons x xs ih =>
    intro h1 h2
    cases b with
    | nil => simp [listLt] at h1
    | cons y ys =>
      cases c with
      | nil => simp [listLt] at h2
      | cons z zs =>
        simp only [listLt] at h1 h2 ⊢
        split_ifs at h1 h2 ⊢ with p1 p2 p3 p4 p5 p6 <;>
          first
          | rfl
          | omega
          | (exact ih h1 h2)

theorem listLt_total {a b : List Char} (h : a ≠ b) :
    listLt a b = true ∨ listLt b a = true := by
  induction a generalizing b with
  | nil =>
    cases b with
    | nil => exact absurd rfl h
    | cons y ys => left; simp [listLt]
  | cons x xs ih =>
    cases b with
    | nil => right; simp [listLt]
    | cons y ys =>
      by_cases hv : x.toNat = y.toNat
      · have hxy : x = y := char_toNat_inj hv
        subst hxy
        have hne : xs ≠ ys := by
          intro hc; exact h (by rw [hc])
        rcases ih hne with h1 | h1
        · left; simp [listLt, h1]
        · right; simp [listLt, h1]
      · by_cases hlt : x.toNat < y.toNat
        · left; simp [listLt, hlt]
        · right
          have : y.toNat < x.toNat := by omega
          simp [listLt, this]

theorem pyStrLt_trans {a b c : String} :
    pyStrLt a b = true → pyStrLt b c = true → pyStrLt a c = true :=
  listLt_trans

theorem pyStrLt_total {a b : String} (h : a ≠ b) :
    pyStrLt a b = true ∨ pyStrLt b a = true := by
  apply listLt_total
  intro hc
  cases a; cases b
  simp only at hc
  exact h (by rw [hc])

/-- `insertSorted` preserves strict sortedness. -/
theorem pairwise_insertSorted (x : String) (l : List String)
    (h : l.Pairwise (fun a b => pyStrLt a b = true)) :
    (insertSorted x l).Pairwise (fun a b => pyStrLt a b = true) := by
  induction l with
  | nil => simp [insertSorted]
  | cons y ys ih =>
    simp only [insertSorted]
    split_ifs with hxy hlt
    · exact h
    · refine List.Pairwise.cons ?_ h
      intro z hz
      rcases List.mem_cons.mp hz with rfl | hz'
      · exact hlt
      · have hyz := (List.pairwise_cons.mp h).1 z hz'
        exact pyStrLt_trans hlt hyz
    · have hyx : pyStrLt y x = true := by
        rcases pyStrLt_total hxy with h1 | h1
        · exact absurd h1 hlt
        · exact h1
      rcases List.pairwise_cons.mp h with ⟨hy, hys⟩
      refine List.Pairwise.cons ?_ (ih hys)
      intro z hz
      rcases (mem_insertSorted x ys z).mp hz with rfl | hz'
      · exact hyx
      · exact hy z hz'

theorem pairwise_pySortedSet (l : List String) :
    (pySortedSet l).Pairwise (fun a b => pyStrLt a b = true) := by
  induction l with
  | nil => simp [pySortedSet]
  | cons x xs ih => exact pairwise_insertSorted x _ ih

/-! ## Vocabulary (module-level keyword lists of `src/app.py`) -/

def DISEASE_KEYWORDS : List String :=
  ["diabetes", "hypertension", "covid", "asthma", "pneumonia",
   "bronchitis", "tuberculosis", "cancer", "malaria", "coronary artery disease",
   "cardiomyopathy", "arthritis", "stroke", "hepatitis", "hiv"]

def SYMPTOM_KEYWORDS : List String :=
  ["fever", "cough", "shortness of breath", "headache", "vomiting",
   "nausea", "dizziness", "fatigue", "chest pain", "abdominal pain", "diarrhea",
   "loss of taste", "loss of smell", "sore throat", "weakness"]

def MEDICATION_KEYWORDS : List String :=
  ["paracetamol", "ibuprofen", "metformin", "insulin", "amoxicillin",
   "azithromycin", "aspirin", "atorvastatin", "amlodipine", "lisinopril",
   "prednisone", "cetirizine", "azithromycin"]

/-! ## `keyword_search` -/

/-- The containment test of `keyword_search`: `k.lower() in text.lower()`. -/
def kwHit (text k : String) : Bool :=
  containsSub (pyLower text.data) (pyLower k.data)

/-- `keyword_search(text, keywords)` from `src/app.py`: collect into a set every
vocabulary entry whose lowercase form occurs in the lowercase text, then return
`sorted(found)`. -/
def keyword_search (text : String) (keywords : List String) : List String :=
  pySortedSet (keywords.filter (fun k => kwHit text k))

theorem mem_keyword_search (text : String) (keywords : List String) (k : String) :
    k ∈ keyword_search text keywords ↔ k ∈ keywords ∧ kwHit text k = true := by
  rw [keyword_search, mem_pySortedSet, List.mem_filter]

/-! ## Python `int()` and the risk-hint rules -/

/-- Numeric value of a list of ASCII digits. -/
def digitsVal (ds : List Char) : Int :=
  ds.foldl (fun acc c => 10 * acc + (c.toNat - '0'.toNat : Int)) 0

/-- Python `int(s)` on a string: strip surrounding whitespace, then an optional
sign followed by at least one ASCII digit; any other input raises `ValueError`,
modelled as `none`.  (Underscore digit grouping and non-ASCII digits, which
CPython also accepts, never occur in this program's inputs and are not
modelled.) -/
def pyInt (s : List Char) : Option Int :=
  let t := ((s.dropWhile isPySpace).reverse.dropWhile isPySpace).reverse
  match t with
  | '+' :: ds => if !ds.isEmpty && ds.all Char.isDigit then some (digitsVal ds) else none
  | '-' :: ds => if !ds.isEmpty && ds.all Char.isDigit then some (-(digitsVal ds)) else none
  | ds => if !ds.isEmpty && ds.all Char.isDigit then some (digitsVal ds) else none

/-- `b.split("/")[0]`: the part of `b` before the first `/` (all of `b` if none). -/
def splitSlashHead (b : List Char) : List Char :=
  b.takeWhile (fun c => c ≠ '/')

/-- `b.split(":")[-1]`: the part of `b` after the last `:` (all of `b` if none). -/
def splitColonLast (b : List Char) : List Char :=
  (b.reverse.takeWhile (fun c => c ≠ ':')).reverse

/-- The generator-`any` of risk rule 2:
`any("/" in b and int(b.split("/")[0].split(":")[-1]) >= 140 for b in bp)`.
Evaluation is short-circuiting left to right; a `b` containing `/` whose
stripped systolic field is not a parsable integer raises `ValueError`
(modelled as `Except.error`). -/
def bpAnyHigh : List String → Except String Bool
  | [] => .ok false
  | b :: rest =>
    if b.data.any (fun c => c == '/') then
      match pyInt (splitColonLast (splitSlashHead b.data)) with
      | none => .error "ValueError: invalid literal for int() with base 10"
      | some v => if v ≥ 140 then .ok true else bpAnyHigh rest
    else bpAnyHigh rest

/-- `re.search(r"\d+", h)`: the first maximal run of ASCII digits in `h`. -/
def firstDigitRun : List Char → Option (List Char)
  | [] => none
  | c :: rest =>
    if c.isDigit then some (c :: rest.takeWhile Char.isDigit)
    else firstDigitRun rest

/-- The generator-`any` of risk rule 3:
`any(re.search(r"\d+", h) and int(re.search(r"\d+", h).group()) > 100 for h in hr)`.
`int` of a digit run cannot raise, so this rule is total. -/
def hrAnyHigh (hr : List String) : Bool :=
  hr.any (fun h =>
    match firstDigitRun h.data with
    | none => false
    | some ds => digitsVal ds > 100)

/-- `generate_risk_hints(diseases, symptoms, bp, hr)` from `src/app.py`.
The five rules append their hints in fixed order; rule 2 may raise `ValueError`
while parsing a systolic value, which aborts the whole call (`Except.error`).
Python's `or` short-circuits, so the parse is not attempted when
`"hypertension" in diseases`. -/
def generate_risk_hints (diseases symptoms bp hr : List String) :
    Except String (List String) :=
  match (if diseases.contains "hypertension" then Except.ok true else bpAnyHigh bp) with
  | .error e => .error e
  | .ok bpHigh =>
    .ok ((if symptoms.contains "shortness of breath" && symptoms.contains "fever" then
            ["⚠️ Possible Respiratory Infection — urgent review advised."] else []) ++
         (if bpHigh then
            ["⚠️ High Blood Pressure detected (Hypertension risk)."] else []) ++
         (if hrAnyHigh hr then
            ["⚠️ Elevated Heart Rate (Tachycardia)."] else []) ++
         (if diseases.contains "diabetes" then
            ["ℹ️ Patient has Diabetes — monitor sugar levels closely."] else []) ++
         (if symptoms.length ≥ 3 then
            ["⚠️ Multiple symptoms present — may require urgent triage."] else []))

/-! ## Generic scanners for `re.sub` and `re.findall`

Each pattern of the source is translated into a `matchAt` function that
attempts the pattern at one position: `matchAt prev s` receives the original
character preceding the position (`none` at the start of the text) — enough to
decide the `\b` and `(?m)^` zero-width assertions — and the remaining text, and
returns the number of characters a match starting here consumes.  The scanners
then implement the leftmost, non-overlapping semantics of `re.sub` /
`re.findall`: try each position left to right, on success emit the replacement
(or record the match) and resume immediately after the matched characters. -/

/-- `re.sub`-style scanning pass, with fuel (`fuel ≥ length` always suffices,
each step consumes at least one character). -/
def subScan (matchAt : Option Char → List Char → Option Nat)
    (rep : List Char → List Char) : Nat → Option Char → List Char → List Char
  | 0, _, s => s
  | _ + 1, _, [] => []
  | fuel + 1, prev, c :: rest =>
    match matchAt prev (c :: rest) with
    | some (k + 1) =>
      rep ((c :: rest).take (k + 1)) ++
        subScan matchAt rep fuel ((c :: rest).get? k) ((c :: rest).drop (k + 1))
    | _ => c :: subScan matchAt rep fuel (some c) rest

/-- `re.findall`-style scanning pass, with fuel. -/
def findAllScan (matchAt : Option Char → List Char → Option Nat) :
    Nat → Option Char → List Char → List (List Char)
  | 0, _, _ => []
  | _ + 1, _, [] => []
  | fuel + 1, prev, c :: rest =>
    match matchAt prev (c :: rest) with
    | some (k + 1) =>
      (c :: rest).take (k + 1) ::
        findAllScan matchAt fuel ((c :: rest).get? k) ((c :: rest).drop (k + 1))
    | _ => findAllScan matchAt fuel (some c) rest

/-- `\b` after a word character: holds iff the rest is empty or starts with a
non-word character. -/
def bAfterWord (rest : List Char) : Bool :=
  match rest with
  | [] => true
  | c :: _ => !isPyWord c

/-- The `n` characters of `s` starting at offset `i` exist and are ASCII digits. -/
def allDigitsSlice (s : List Char) (i n : Nat) : Bool :=
  ((s.drop i).take n).length = n && ((s.drop i).take n).all Char.isDigit

/-- First `n` characters exist and are ASCII digits. -/
def allDigitsTake (n : Nat) (s : List Char) : Bool :=
  allDigitsSlice s 0 n

/-- Try a partial match function on each element in order, returning the first
success (ordered alternation). -/
def tryEach {α β : Type} (l : List α) (f : α → Option β) : Option β :=
  match l with
  | [] => none
  | a :: as => f a <|> tryEach as f

/-- Index (from the end) of the last element satisfying `p`, as an index from
the front; `none` if no element satisfies `p`. -/
def lastIdxWhere (p : Char → Bool) : List Char → Option Nat
  | [] => none
  | c :: cs =>
    match lastIdxWhere p cs with
    | some i => some (i + 1)
    | none => if p c then some 0 else none

/-! ## The PII patterns of `deidentify_text` -/

/-- Match attempt for
`NAME_LINE_PATTERN = r"(?im)^\s*(patient name|name)\s*[:\-]\s*.+$"`.
`^` requires a line start; the leading `\s*` runs are maximal (shrinking them
can never help, since the follow-up literals start with non-space characters);
after the separator, the greedy `\s*` backtracks just far enough for `.+` to
find a first non-newline character, and `.+$` then extends to the end of that
line. -/
def nameLineMatchAt (prev : Option Char) (s : List Char) : Option Nat :=
  if !lineStart prev then none else
  let w1 := countWhile isPySpace s
  let r1 := s.drop w1
  let labLen : Option Nat :=
    if ciIsPrefixOf "patient name".data r1 then some 12
    else if ciIsPrefixOf "name".data r1 then some 4
    else none
  match labLen with
  | none => none
  | some nl =>
    let r2 := r1.drop nl
    let w2 := countWhile isPySpace r2
    let r3 := r2.drop w2
    match r3 with
    | [] => none
    | sep :: r4 =>
      if sep = ':' || sep = '-' then
        let w := countWhile isPySpace r4
        let q : Option Nat :=
          if w < r4.length then some w
          else lastIdxWhere (fun c => c ≠ '\n') (r4.take w)
        match q with
        | none => none
        | some q0 =>
          let content := (r4.drop q0).takeWhile (fun c => c ≠ '\n')
          some (w1 + nl + w2 + 1 + q0 + content.length)
      else none

/-- Match attempt for the identifier-line pattern
`r"(?im)^\s*(mrn|id|patient id|hospital id)\s*[:\-]\s*\S+\s*$"`.
The value `\S+` is a maximal non-space run; the trailing greedy `\s*$`
stops at the end of the text if the whitespace run reaches it, otherwise
just before the last newline inside that whitespace run. -/
def idLineMatchAt (prev : Option Char) (s : List Char) : Option Nat :=
  if !lineStart prev then none else
  let w1 := countWhile isPySpace s
  let r1 := s.drop w1
  let labLen : Option Nat :=
    if ciIsPrefixOf "mrn".data r1 then some 3
    else if ciIsPrefixOf "id".data r1 then some 2
    else if ciIsPrefixOf "patient id".data r1 then some 10
    else if ciIsPrefixOf "hospital id".data r1 then some 11
    else none
  match labLen with
  | none => none
  | some nl =>
    let r2 := r1.drop nl
    let w2 := countWhile isPySpace r2
    let r3 := r2.drop w2
    match r3 with
    | [] => none
    | sep :: r4 =>
      if sep = ':' || sep = '-' then
        let w3 := countWhile isPySpace r4
        let r5 := r4.drop w3
        let v := countWhile (fun c => !isPySpace c) r5
        if v = 0 then none else
        let r6 := r5.drop v
        let w4 := countWhile isPySpace r6
        let q : Option Nat :=
          if r6.length = w4 then some w4
          else lastIdxWhere (fun c => c = '\n') (r6.take w4)
        match q with
        | none => none
        | some q0 => some (w1 + nl + w2 + 1 + w3 + v + q0)
      else none

/-- The phone separator class `[-.\s]`. -/
def isSepPh (c : Char) : Bool := c = '-' || c = '.' || isPySpace c

/-- The two body alternatives `(?:\d{10}|\d{3}[-.\s]\d{3}[-.\s]\d{4})`
followed by `\b`, tried in pattern order. -/
def phoneCore (r : List Char) : Option Nat :=
  (if allDigitsTake 10 r && bAfterWord (r.drop 10) then some 10 else none) <|>
  (if allDigitsTake 3 r && ((r.drop 3).head?.map isSepPh).getD false &&
      allDigitsSlice r 4 3 && ((r.drop 7).head?.map isSepPh).getD false &&
      allDigitsSlice r 8 4 && bAfterWord (r.drop 12)
   then some 12 else none)

/-- One variant of the optional prefix `(?:\+?\d{1,3}[-.\s]?)?`, followed by the
body. -/
def phoneTryWith (s : List Char) (usePlus : Bool) (nd : Nat) (useSep : Bool) :
    Option Nat :=
  let step1 : Option (Nat × List Char) :=
    if usePlus then
      match s with
      | '+' :: r => some (1, r)
      | _ => none
    else some (0, s)
  match step1 with
  | none => none
  | some (k1, s1) =>
    if allDigitsTake nd s1 then
      let s2 := s1.drop nd
      let step3 : Option (Nat × List Char) :=
        if useSep then
          match s2 with
          | c :: r => if isSepPh c then some (1, r) else none
          | [] => none
        else some (0, s2)
      match step3 with
      | none => none
      | some (k3, s3) =>
        match phoneCore s3 with
        | some kc => some (k1 + nd + k3 + kc)
        | none => none
    else none

/-- Match attempt for
`PHONE_PATTERN = r"\b(?:\+?\d{1,3}[-.\s]?)?(?:\d{10}|\d{3}[-.\s]\d{3}[-.\s]\d{4})\b"`.
Backtracking tries the greedy variants of the optional prefix in regex order
(`+` present first, 3 then 2 then 1 prefix digits, separator present first),
then the prefix-absent form. -/
def phoneMatchAt (prev : Option Char) (s : List Char) : Option Nat :=
  if !pyBoundary prev s.head? then none else
  phoneTryWith s true 3 true <|> phoneTryWith s true 3 false <|>
  phoneTryWith s true 2 true <|> phoneTryWith s true 2 false <|>
  phoneTryWith s true 1 true <|> phoneTryWith s true 1 false <|>
  phoneTryWith s false 3 true <|> phoneTryWith s false 3 false <|>
  phoneTryWith s false 2 true <|> phoneTryWith s false 2 false <|>
  phoneTryWith s false 1 true <|> phoneTryWith s false 1 false <|>
  phoneCore s

/-- The local-part class `[A-Za-z0-9._%+-]`. -/
def isLocalChar (c : Char) : Bool :=
  c.isAlphanum || c = '.' || c = '_' || c = '%' || c = '+' || c = '-'

/-- The domain class `[A-Za-z0-9.-]`. -/
def isDomainChar (c : Char) : Bool :=
  c.isAlphanum || c = '.' || c = '-'

/-- Indices of `'.'` characters in `l`, in descending order (the greedy domain
run backtracks from the rightmost dot leftwards). -/
def dotIdxDesc (l : List Char) : List Nat :=
  ((List.range l.length).filter (fun i => l.get? i = some '.')).reverse

/-- Domain split at dot position `d` inside the maximal domain run of `r`:
`[A-Za-z0-9.-]+` of length `d`, then `\.`, then `[A-Za-z]{2,}\b`.  The TLD
run is maximal; shrinking it only places `\b` between two letters, so the
maximal run is the only candidate. -/
def emailTldTry (r : List Char) (d : Nat) : Option Nat :=
  let after := r.drop (d + 1)
  let t := countWhile Char.isAlpha after
  if 2 ≤ t && bAfterWord (after.drop t) then some (d + 1 + t) else none

/-- Match attempt for
`EMAIL_PATTERN = r"\b[A-Za-z0-9._%+-]+@[A-Za-z0-9.-]+\.[A-Za-z]{2,}\b"`.
The local part is the maximal run of local characters (`@` is not a local
character, so no shorter run can be followed by `@`); the greedy domain run
backtracks to the rightmost dot that leaves a valid TLD. -/
def emailMatchAt (prev : Option Char) (s : List Char) : Option Nat :=
  if !pyBoundary prev s.head? then none else
  let lcl := countWhile isLocalChar s
  if lcl = 0 then none else
  match (s.drop lcl).head? with
  | some '@' =>
    let r := s.drop (lcl + 1)
    let dd := countWhile isDomainChar r
    (tryEach ((dotIdxDesc (r.take dd)).filter (fun d => 1 ≤ d))
        (fun d => emailTldTry r d)).map (fun k => lcl + 1 + k)
  | _ => none

/-! ## The extraction patterns -/

/-- The `[: ]` filler class of the BP/HR patterns (colon and space only). -/
def isBpFill (c : Char) : Bool := c = ':' || c = ' '

/-- Body of the BP pattern after the label: `\d{2,3}/\d{2,3}\b` with `d1`/`d2`
chosen digit counts. -/
def bpWith (r1 : List Char) (d1 d2 : Nat) : Option Nat :=
  if allDigitsTake d1 r1 && ((r1.drop d1).head?.map (fun c => c == '/')).getD false &&
     allDigitsSlice r1 (d1 + 1) d2 && bAfterWord (r1.drop (d1 + 1 + d2))
  then some (d1 + 1 + d2) else none

/-- Match attempt for `BP_PATTERN = r"\b(?:BP[: ]*\d{2,3}/\d{2,3})\b"` with
`re.IGNORECASE`. -/
def bpMatchAt (prev : Option Char) (s : List Char) : Option Nat :=
  if !pyBoundary prev s.head? then none else
  if ciIsPrefixOf "bp".data s then
    let r := s.drop 2
    let w := countWhile isBpFill r
    let r1 := r.drop w
    (bpWith r1 3 3 <|> bpWith r1 3 2 <|> bpWith r1 2 3 <|> bpWith r1 2 2).map
      (fun k => 2 + w + k)
  else none

/-- Numeric tail `[: ]*\d{2,3}\b` of the HR pattern. -/
def hrNumTail (r : List Char) : Option Nat :=
  let w := countWhile isBpFill r
  let r1 := r.drop w
  if allDigitsTake 3 r1 && bAfterWord (r1.drop 3) then some (w + 3)
  else if allDigitsTake 2 r1 && bAfterWord (r1.drop 2) then some (w + 2)
  else none

/-- Match attempt for
`HR_PATTERN = r"\b(?:HR[: ]*\d{2,3}|Heart rate[: ]*\d{2,3})\b"` with
`re.IGNORECASE`, alternatives in pattern order. -/
def hrMatchAt (prev : Option Char) (s : List Char) : Option Nat :=
  if !pyBoundary prev s.head? then none else
  (if ciIsPrefixOf "hr".data s then (hrNumTail (s.drop 2)).map (fun k => 2 + k)
   else none) <|>
  (if ciIsPrefixOf "heart rate".data s then (hrNumTail (s.drop 10)).map (fun k => 10 + k)
   else none)

/-- A slash or dash date separator at the head of the remaining text. -/
def dateSepHead (r : List Char) : Bool :=
  match r.head? with
  | some c => c = '/' || c = '-'
  | none => false

/-- First date alternative (one-or-two-digit day and month and a two-to-four
digit year, with slash-or-dash separators, then `\b`) at chosen digit counts. -/
def dateAlt1With (s : List Char) (a b y : Nat) : Option Nat :=
  if allDigitsTake a s && dateSepHead (s.drop a) && allDigitsSlice s (a + 1) b &&
     dateSepHead (s.drop (a + 1 + b)) && allDigitsSlice s (a + b + 2) y &&
     bAfterWord (s.drop (a + b + 2 + y))
  then some (a + b + 2 + y) else none

/-- All greedy-order variants of the first date alternative. -/
def dateAlt1 (s : List Char) : Option Nat :=
  tryEach [(2,2,4),(2,2,3),(2,2,2),(2,1,4),(2,1,3),(2,1,2),
           (1,2,4),(1,2,3),(1,2,2),(1,1,4),(1,1,3),(1,1,2)]
    (fun aby => dateAlt1With s aby.1 aby.2.1 aby.2.2)

/-- Second date alternative `\d{4}-\d{2}-\d{2}\b`. -/
def dateAlt2 (s : List Char) : Option Nat :=
  if allDigitsTake 4 s && ((s.drop 4).head?.map (fun c => c == '-')).getD false &&
     allDigitsSlice s 5 2 && ((s.drop 7).head?.map (fun c => c == '-')).getD false &&
     allDigitsSlice s 8 2 && bAfterWord (s.drop 10)
  then some 10 else none

/-- The twelve month-name literals of the date pattern (case-sensitive). -/
def monthNames : List (List Char) :=
  (["Jan", "Feb", "Mar", "Apr", "May", "Jun", "Jul", "Aug", "Sep", "Oct",
    "Nov", "Dec"] : List String).map String.data

/-- Day-and-year tail `\d{1,2},?\s+\d{4}\b` of the month alternative, at a
chosen day digit count (the optional comma is taken when present, since the
following `\s+` can never match a comma). -/
def dateDayTry (r2 : List Char) (d : Nat) : Option Nat :=
  if allDigitsTake d r2 then
    let r3 := r2.drop d
    match r3 with
    | ',' :: r4 =>
      let w2 := countWhile isPySpace r4
      if 1 ≤ w2 && allDigitsSlice r4 w2 4 && bAfterWord (r4.drop (w2 + 4)) then
        some (d + 1 + w2 + 4)
      else none
    | _ =>
      let w2 := countWhile isPySpace r3
      if 1 ≤ w2 && allDigitsSlice r3 w2 4 && bAfterWord (r3.drop (w2 + 4)) then
        some (d + w2 + 4)
      else none
  else none

/-- Month alternative `(?:Jan|...|Dec)[a-z]*\s+\d{1,2},?\s+\d{4}\b`.  The
`[a-z]*` run is maximal (shrinking it would put `\s+` on a lowercase letter). -/
def dateAlt3 (s : List Char) : Option Nat :=
  tryEach monthNames (fun m =>
    if m.isPrefixOf s then
      let r := s.drop 3
      let ml := countWhile (fun c => 'a' ≤ c && c ≤ 'z') r
      let r1 := r.drop ml
      let w1 := countWhile isPySpace r1
      if 1 ≤ w1 then
        let r2 := r1.drop w1
        (dateDayTry r2 2 <|> dateDayTry r2 1).map (fun k => 3 + ml + w1 + k)
      else none
    else none)

/-- Match attempt for `DATE_PATTERN` (three alternatives in pattern order,
no `IGNORECASE`). -/
def dateMatchAt (prev : Option Char) (s : List Char) : Option Nat :=
  if !pyBoundary prev s.head? then none else
  dateAlt1 s <|> dateAlt2 s <|> dateAlt3 s

/-- The dosage unit literals `(?:mg|MG|ml|mL|g|units|IU)` in pattern order
(case-sensitive: the pattern has no `IGNORECASE` flag). -/
def dosageUnits : List (List Char) :=
  (["mg", "MG", "ml", "mL", "g", "units", "IU"] : List String).map String.data

/-- Match attempt for `DOSAGE_PATTERN = r"\b\d+(?:mg|MG|ml|mL|g|units|IU)\b"`.
The digit run is maximal (shrinking it would put the unit literal on a digit). -/
def dosageMatchAt (prev : Option Char) (s : List Char) : Option Nat :=
  if !pyBoundary prev s.head? then none else
  let n := countWhile Char.isDigit s
  if n = 0 then none else
  let r := s.drop n
  tryEach dosageUnits (fun u =>
    if u.isPrefixOf r && bAfterWord (r.drop u.length) then some (n + u.length)
    else none)

/-! ## The redaction and extraction functions of `src/app.py` -/

/-- First substitution of `deidentify_text`:
`re.sub(NAME_LINE_PATTERN, "Patient Name: [REDACTED]", text)`. -/
def name_sub (s : List Char) : List Char :=
  subScan nameLineMatchAt (fun _ => "Patient Name: [REDACTED]".data) s.length none s

/-- Second substitution: `re.sub(PHONE_PATTERN, "[REDACTED_PHONE]", t)`. -/
def phone_sub (s : List Char) : List Char :=
  subScan phoneMatchAt (fun _ => "[REDACTED_PHONE]".data) s.length none s

/-- Third substitution: `re.sub(EMAIL_PATTERN, "[REDACTED_EMAIL]", t)`. -/
def email_sub (s : List Char) : List Char :=
  subScan emailMatchAt (fun _ => "[REDACTED_EMAIL]".data) s.length none s

/-- Fourth substitution: the identifier-line rewrite with replacement
`lambda m: m.group(0).split(":")[0] + ": [REDACTED]"`. -/
def id_sub (s : List Char) : List Char :=
  subScan idLineMatchAt
    (fun m => m.takeWhile (fun c => c ≠ ':') ++ ": [REDACTED]".data) s.length none s

/-- `deidentify_text(text)` from `src/app.py`: the four substitutions in source
order. -/
def deidentify_text (s : String) : String :=
  ⟨id_sub (email_sub (phone_sub (name_sub s.data)))⟩

/-- `find_dates(text) = sorted(set(re.findall(DATE_PATTERN, text)))`. -/
def find_dates (text : String) : List String :=
  pySortedSet ((findAllScan dateMatchAt text.data.length none text.data).map
    (fun l => (⟨l⟩ : String)))

/-- `find_bp(text) = sorted(set(re.findall(BP_PATTERN, text, flags=re.IGNORECASE)))`. -/
def find_bp (text : String) : List String :=
  pySortedSet ((findAllScan bpMatchAt text.data.length none text.data).map
    (fun l => (⟨l⟩ : String)))

/-- `find_hr(text) = sorted(set(re.findall(HR_PATTERN, text, flags=re.IGNORECASE)))`. -/
def find_hr (text : String) : List String :=
  pySortedSet ((findAllScan hrMatchAt text.data.length none text.data).map
    (fun l => (⟨l⟩ : String)))

/-- `re.findall(DOSAGE_PATTERN, text)`. -/
def dosage_findall (s : List Char) : List (List Char) :=
  findAllScan dosageMatchAt s.length none s

/-- `find_medications(text)` from `src/app.py`: vocabulary hits unioned with
dosage tokens, as `sorted(set(...))`. -/
def find_medications (text : String) : List String :=
  pySortedSet ((MEDICATION_KEYWORDS.filter (fun k => kwHit text k)) ++
    (dosage_findall text.data).map (fun l => (⟨l⟩ : String)))

/-! ## Highlighting: escaping and `wrap_terms` -/

/-- `re.sub(r"&", "&amp;", t)`. -/
def escAmp : List Char → List Char
  | [] => []
  | c :: r => if c = '&' then '&' :: 'a' :: 'm' :: 'p' :: ';' :: escAmp r
              else c :: escAmp r

/-- `re.sub(r"<", "&lt;", t)`. -/
def escLt : List Char → List Char
  | [] => []
  | c :: r => if c = '<' then '&' :: 'l' :: 't' :: ';' :: escLt r
              else c :: escLt r

/-- `re.sub(r">", "&gt;", t)`. -/
def escGt : List Char → List Char
  | [] => []
  | c :: r => if c = '>' then '&' :: 'g' :: 't' :: ';' :: escGt r
              else c :: escGt r

/-- The escape pass of the highlighting step (`&` first, then `<`, then `>`). -/
def escapeHtml (s : List Char) : List Char :=
  escGt (escLt (escAmp s))

/-- The inserted opening marker `<span class='{css}'>`. -/
def openTok (css : List Char) : List Char :=
  "<span class='".data ++ css ++ "'>".data

/-- The inserted closing marker `</span>`. -/
def closeTok : List Char := "</span>".data

/-- Match attempt for one term's highlight pattern
`(?i)\b({re.escape(term)})\b`: a case-insensitive literal occurrence of the
(nonempty) term with word boundaries on both sides. -/
def wrapTermMatchAt (term : List Char) (prev : Option Char) (s : List Char) :
    Option Nat :=
  if term.isEmpty then none else
  if !pyBoundary prev s.head? then none else
  if ciIsPrefixOf (pyLower term) s then
    if pyBoundary ((s.take term.length).getLast?) ((s.drop term.length).head?) then
      some term.length
    else none
  else none

/-- One `re.sub` highlight pass for a single term: every matched occurrence is
replaced by `<span class='{css}'>` ++ the matched text (backreference `\1`)
++ `</span>`. -/
def wrap_term (css : List Char) (ht : List Char) (term : List Char) : List Char :=
  subScan (wrapTermMatchAt term) (fun m => openTok css ++ m ++ closeTok)
    ht.length none ht

/-- Insert into a list sorted by descending length (for
`sorted(set(terms), key=lambda x: -len(x))`). -/
def insertByLenDesc (x : String) : List String → List String
  | [] => [x]
  | y :: ys =>
    if y.data.length ≤ x.data.length then x :: y :: ys
    else y :: insertByLenDesc x ys

/-- `sorted(set(terms), key=lambda x: -len(x))`: deduplicate, then order by
descending length.  (CPython leaves the relative order of equal-length terms
to set iteration order; here equal-length terms keep the lexicographic order
of the deduplication step, a deterministic choice of that unspecified order.) -/
def sortTermsForWrap (terms : List String) : List String :=
  (pySortedSet terms).foldr insertByLenDesc []

/-- `wrap_terms(ht, terms, css_class)` from `src/app.py`: apply the highlight
substitution for each term, longest first, skipping empty terms. -/
def wrap_terms (ht : List Char) (terms : List String) (css : List Char) : List Char :=
  (sortTermsForWrap terms).foldl
    (fun h term => if term.data.isEmpty then h else wrap_term css h term.data) ht

/-- The fixed legend-and-`<pre>` wrapper the loop puts around the highlighted
text (`f"<div class='legend'>...</div><pre>{html}</pre>"`). -/
def legendPre : List Char :=
  ("<div class='legend'><div style='background:#fdecea'>Disease</div>" ++
   "<div style='background:#fff4e5'>Symptom</div>" ++
   "<div style='background:#e8f8f5'>Medication</div></div><pre>").data

/-- The highlighting step of the analysis loop: escape, then wrap diseases,
symptoms and medications in that order, then wrap in the legend block. -/
def buildHighlight (text : List Char) (diseases symptoms meds : List String) :
    List Char :=
  let e := escapeHtml text
  let h1 := wrap_terms e diseases "disease".data
  let h2 := wrap_terms h1 symptoms "symptom".data
  let h3 := wrap_terms h2 meds "med".data
  legendPre ++ h3 ++ "</pre>".data

/-! ## The per-document analysis loop -/

/-- The per-document record assembled by one iteration of the analysis loop
(the `res` dict, plus the `highlighted_docs[fname]` markup computed in the same
iteration).  The external-NER field is the constant empty list — the loop only
fills it when the optional spaCy collaborator is installed and enabled, which
is outside this embedding. -/
structure DocResult where
  filename : String
  dates : List String
  bp : List String
  hr : List String
  diseases : List String
  symptoms : List String
  medications : List String
  risk_hints : List String
  raw : String
  html : String
deriving Repr, DecidableEq

/-- One iteration of the analysis loop on document `(fname, raw_text)` with
redaction flag `deid`: redact (optionally), extract all signals, evaluate the
risk rules (which may raise, aborting the iteration and the whole loop), and
build the highlighted markup. -/
def analyzeDoc (deid : Bool) (doc : String × String) : Except String DocResult :=
  let text := if deid then deidentify_text doc.2 else doc.2
  let dates := find_dates text
  let bp := find_bp text
  let hr := find_hr text
  let diseases := keyword_search text DISEASE_KEYWORDS
  let symptoms := keyword_search text SYMPTOM_KEYWORDS
  let meds := find_medications text
  match generate_risk_hints diseases symptoms bp hr with
  | .error e => .error e
  | .ok hints =>
    .ok { filename := doc.1, dates := dates, bp := bp, hr := hr,
          diseases := diseases, symptoms := symptoms, medications := meds,
          risk_hints := hints, raw := text,
          html := ⟨buildHighlight text.data diseases symptoms meds⟩ }

/-- The accumulators of the analysis loop: `aggregated_results`, `all_dates`
and the three `counts` entries. -/
structure BatchState where
  results : List DocResult
  all_dates : List String
  countDiseases : Nat
  countSymptoms : Nat
  countMeds : Nat
deriving Repr, DecidableEq

/-- The analysis loop over the collected reports, threading the accumulators
exactly as the source does (`aggregated_results.append`,
`all_dates.extend(dates)`, `counts[...] += len(...)`). -/
def runBatch (deid : Bool) : List (String × String) → BatchState → Except String BatchState
  | [], st => .ok st
  | doc :: rest, st =>
    match analyzeDoc deid doc with
    | .error e => .error e
    | .ok r =>
      runBatch deid rest
        { results := st.results ++ [r]
          all_dates := st.all_dates ++ r.dates
          countDiseases := st.countDiseases + r.diseases.length
          countSymptoms := st.countSymptoms + r.symptoms.length
          countMeds := st.countMeds + r.medications.length }

/-- The whole `Analyze Reports` pass, starting from empty accumulators. -/
def analyze_batch (deid : Bool) (docs : List (String × String)) :
    Except String BatchState :=
  runBatch deid docs ⟨[], [], 0, 0, 0⟩

/-! ## Helper lemmas for list membership monotonicity -/

theorem ifList_mono {c c' : Prop} [Decidable c] [Decidable c'] (l : List String)
    (himp : c → c') (h : String) (hm : h ∈ (if c then l else [])) :
    h ∈ (if c' then l else []) := by
  by_cases hc : c
  · rw [if_pos (himp hc)]; rwa [if_pos hc] at hm
  · rw [if_neg hc] at hm; simp at hm

theorem mem_append_mono {A A' B B' : List String}
    (ha : ∀ h, h ∈ A → h ∈ A') (hb : ∀ h, h ∈ B → h ∈ B') :
    ∀ h, h ∈ A ++ B → h ∈ A' ++ B' := by
  intro h hm
  rcases List.mem_append.mp hm with h1 | h1
  · exact List.mem_append_left _ (ha h h1)
  · exact List.mem_append_right _ (hb h h1)

/-! ## Claim theorems: concrete evaluations and basic properties -/

/-- **C1** (code_bug evidence).  `deidentify_text` is *not* idempotent: on the
identifier line `"id-5\n"` (dash separator, trailing newline) the trailing
greedy `\s*$` of the identifier pattern absorbs the newline into `group(0)`;
since the line has no colon, `split(":")[0]` keeps the whole match including
the newline, and the rewritten text `"id-5\n: [REDACTED]"` matches the pattern
again on the second pass, which rewrites it once more. -/
theorem deidentify_not_idempotent_on_dash_id_line :
    deidentify_text "id-5\n" = "id-5\n: [REDACTED]" ∧
    deidentify_text (deidentify_text "id-5\n") = "id-5: [REDACTED]\n: [REDACTED]" ∧
    deidentify_text (deidentify_text "id-5\n") ≠ deidentify_text "id-5\n" := by
  refine ⟨by decide, by decide, by decide⟩

/-- **C2** (code_bug evidence).  Risk-hint evaluation is *not* total: the BP
pattern accepts the colon-less form `"BP 150/95"`, and on such a match rule 2
computes `int("BP 150")`, which raises `ValueError` and aborts the whole
evaluation instead of making the rule false for that entry. -/
theorem risk_hints_raise_on_colonless_bp :
    find_bp "BP 150/95" = ["BP 150/95"] ∧
    generate_risk_hints [] [] ["BP 150/95"] [] =
      Except.error "ValueError: invalid literal for int() with base 10" := by
  refine ⟨by decide, by rfl⟩

/-- **C4**.  Soundness and completeness of `keyword_search`: a vocabulary term
is in the result iff it occurs case-insensitively as a substring of the text,
and the result is strictly sorted (hence duplicate-free). -/
theorem keyword_search_sound_complete (t : String) (keywords : List String)
    (k : String) :
    (k ∈ keyword_search t keywords ↔
      k ∈ keywords ∧ containsSub (pyLower t.data) (pyLower k.data) = true) ∧
    (keyword_search t keywords).Pairwise (fun a b => pyStrLt a b = true) :=
  ⟨mem_keyword_search t keywords k, pairwise_pySortedSet _⟩

/-- **C5** (counterexample).  The name label is *not* preserved: a line with
label `"Name"` is rewritten to the fixed line `"Patient Name: [REDACTED]"`.
And an identifier line in the dash-separator form does *not* become
`<label>: [REDACTED]`: the whole line, value included, is kept and
`": [REDACTED]"` is appended. -/
theorem deidentify_label_counterexample :
    deidentify_text "Name: John Doe" = "Patient Name: [REDACTED]" ∧
    deidentify_text "MRN- 123" = "MRN- 123: [REDACTED]" ∧
    deidentify_text "MRN- 123" ≠ "MRN: [REDACTED]" := by
  refine ⟨by decide, by decide, by decide⟩

/-- **C7** (counterexample).  The dosage pattern is *not* case-insensitive for
`mg`/`ml`: it accepts exactly the unit spellings `mg`, `MG`, `ml`, `mL` (plus
`g`, `units`, `IU`), so `"500Mg"` and `"10ML"` are not dosage tokens and
`find_medications` returns nothing for them. -/
theorem find_medications_mixed_case_counterexample :
    find_medications "500Mg" = [] ∧ find_medications "10ML" = [] ∧
    ("500Mg" : String) ∉ find_medications "500Mg" := by
  refine ⟨by decide, by decide, by decide⟩

/-- **C10**.  Extraction and annotation can disagree: on the text `"fevers"`,
`keyword_search` reports the symptom `"fever"` (case-insensitive substring
containment), yet the word-boundary highlight pass inserts no marker at all —
the markup is the unchanged text. -/
theorem extraction_highlight_disagree :
    "fever" ∈ keyword_search "fevers" SYMPTOM_KEYWORDS ∧
    wrap_terms (escapeHtml "fevers".data) (keyword_search "fevers" SYMPTOM_KEYWORDS)
      ("symptom".data) = "fevers".data := by
  refine ⟨by decide, by decide⟩

/-- **C9**.  Hint monotonicity: enlarging the symptom set (supersets can only
grow the length a deduplicated symptom list reports) never removes a hint.
Each of the five rules is evaluated independently on the same signals; the
symptom-dependent rules 1 and 5 are monotone in the symptom set and no rule
suppresses another. -/
theorem risk_hints_monotone_in_symptoms
    (diseases sy sy' bp hr : List String) (hints : List String)
    (hsub : ∀ x, x ∈ sy → x ∈ sy') (hlen : sy.length ≤ sy'.length)
    (hok : generate_risk_hints diseases sy bp hr = Except.ok hints) :
    ∃ hints', generate_risk_hints diseases sy' bp hr = Except.ok hints' ∧
      ∀ h, h ∈ hints → h ∈ hints' := by
  have hcont : ∀ a : String, sy.contains a = true → sy'.contains a = true := by
    intro a ha
    exact List.elem_eq_true_of_mem (hsub a (List.mem_of_elem_eq_true ha))
  unfold generate_risk_hints at hok ⊢
  cases hbp : (if diseases.contains "hypertension" then Except.ok true else bpAnyHigh bp) with
  | error e => rw [hbp] at hok; simp at hok
  | ok b =>
    rw [hbp] at hok
    simp only [Except.ok.injEq] at hok
    refine ⟨_, rfl, ?_⟩
    rw [← hok]
    have i1 : (sy.contains "shortness of breath" && sy.contains "fever") = true →
        (sy'.contains "shortness of breath" && sy'.contains "fever") = true := by
      intro hx
      rcases Bool.and_eq_true .. |>.mp hx with ⟨ha, hb⟩
      exact Bool.and_eq_true .. |>.mpr ⟨hcont _ ha, hcont _ hb⟩
    have i5 : sy.length ≥ 3 → sy'.length ≥ 3 := by omega
    exact mem_append_mono
      (mem_append_mono
        (mem_append_mono
          (mem_append_mono (ifList_mono _ i1) (ifList_mono _ id))
          (ifList_mono _ id))
        (ifList_mono _ id))
      (ifList_mono _ i5)

/-- Witness for the monotonicity theorem at a concrete signal set: with
symptoms `["fever", "headache", "nausea", "shortness of breath"]` rules 1 and 5
fire, and both hints survive adding the symptom `"cough"`. -/
theorem risk_hints_monotone_in_symptoms_witness :
    ∃ hints', generate_risk_hints []
        ["cough", "fever", "headache", "nausea", "shortness of breath"] [] [] =
        Except.ok hints' ∧
      ∀ h, h ∈ ["⚠️ Possible Respiratory Infection — urgent review advised.",
                "⚠️ Multiple symptoms present — may require urgent triage."] →
        h ∈ hints' := by
  have h0 : generate_risk_hints [] ["fever", "headache", "nausea", "shortness of breath"]
      [] [] = Except.ok
        ["⚠️ Possible Respiratory Infection — urgent review advised.",
         "⚠️ Multiple symptoms present — may require urgent triage."] := by rfl
  exact risk_hints_monotone_in_symptoms []
    ["fever", "headache", "nausea", "shortness of breath"]
    ["cough", "fever", "headache", "nausea", "shortness of breath"] [] [] _
    (by decide) (by decide) h0

/-! ## The analysis loop is free of cross-document state -/

/-- Unfolding of the loop: a successful run processes each document with
`analyzeDoc` independently — the accumulators never feed back into a
document's own analysis — and appends results and dates in order. -/
theorem runBatch_ok_spec (deid : Bool) (docs : List (String × String))
    (st st' : BatchState) (h : runBatch deid docs st = Except.ok st') :
    ∃ rs, st'.results = st.results ++ rs ∧
      st'.all_dates = st.all_dates ++ (rs.map (fun r => r.dates)).flatten ∧
      rs.length = docs.length ∧
      ∀ i (hi : i < docs.length) (hi' : i < rs.length),
        analyzeDoc deid (docs.get ⟨i, hi⟩) = Except.ok (rs.get ⟨i, hi'⟩) := by
  induction docs generalizing st with
  | nil =>
    simp only [runBatch, Except.ok.injEq] at h
    refine ⟨[], by simp [← h], by simp [← h], rfl, ?_⟩
    intro i hi
    exact absurd hi (by simp)
  | cons doc rest ih =>
    rw [runBatch] at h
    cases hd : analyzeDoc deid doc with
    | error e => rw [hd] at h; simp at h
    | ok r =>
      rw [hd] at h
      rcases ih _ h with ⟨rs', hres, hdates, hlen, hget⟩
      refine ⟨r :: rs', by simpa [List.append_assoc] using hres,
        by simpa [List.append_assoc] using hdates, by simpa using hlen, ?_⟩
      intro i hi hi'
      cases i with
      | zero => simpa using hd
      | succ n =>
        simp only [List.get_cons_succ]
        exact hget n (by simpa using hi) (by simpa using hi')

/-- On identical texts (any filenames), successful iterations produce identical
signals, hints and markup. -/
theorem analyzeDoc_text_determined (deid : Bool) (d d' : String × String)
    (r r' : DocResult) (ht : d.2 = d'.2)
    (h : analyzeDoc deid d = Except.ok r) (h' : analyzeDoc deid d' = Except.ok r') :
    r.dates = r'.dates ∧ r.bp = r'.bp ∧ r.hr = r'.hr ∧
    r.diseases = r'.diseases ∧ r.symptoms = r'.symptoms ∧
    r.medications = r'.medications ∧ r.risk_hints = r'.risk_hints ∧
    r.raw = r'.raw ∧ r.html = r'.html := by
  simp only [analyzeDoc] at h h'
  rw [ht] at h
  cases hg : generate_risk_hints
      (keyword_search (if deid then deidentify_text d'.2 else d'.2) DISEASE_KEYWORDS)
      (keyword_search (if deid then deidentify_text d'.2 else d'.2) SYMPTOM_KEYWORDS)
      (find_bp (if deid then deidentify_text d'.2 else d'.2))
      (find_hr (if deid then deidentify_text d'.2 else d'.2)) with
  | error e => rw [hg] at h; simp at h
  | ok hints =>
    rw [hg] at h h'
    simp only [Except.ok.injEq] at h h'
    subst h; subst h'
    exact ⟨rfl, rfl, rfl, rfl, rfl, rfl, rfl, rfl, rfl⟩

/-- **C3**.  The per-document pipeline is a pure function of the input text and
the redaction flag: in any successful batch run there is one result per
document, and any two documents with identical text receive identical
extracted signals, risk hints and annotated markup, independent of document
identity, position, or the other documents of the batch. -/
theorem batch_pipeline_pure (deid : Bool) (docs : List (String × String))
    (st : BatchState) (h : analyze_batch deid docs = Except.ok st) :
    st.results.length = docs.length ∧
    ∀ i j (hi : i < docs.length) (hj : j < docs.length)
      (hi' : i < st.results.length) (hj' : j < st.results.length),
      (docs.get ⟨i, hi⟩).2 = (docs.get ⟨j, hj⟩).2 →
      (st.results.get ⟨i, hi'⟩).dates = (st.results.get ⟨j, hj'⟩).dates ∧
      (st.results.get ⟨i, hi'⟩).bp = (st.results.get ⟨j, hj'⟩).bp ∧
      (st.results.get ⟨i, hi'⟩).hr = (st.results.get ⟨j, hj'⟩).hr ∧
      (st.results.get ⟨i, hi'⟩).diseases = (st.results.get ⟨j, hj'⟩).diseases ∧
      (st.results.get ⟨i, hi'⟩).symptoms = (st.results.get ⟨j, hj'⟩).symptoms ∧
      (st.results.get ⟨i, hi'⟩).medications = (st.results.get ⟨j, hj'⟩).medications ∧
      (st.results.get ⟨i, hi'⟩).risk_hints = (st.results.get ⟨j, hj'⟩).risk_hints ∧
      (st.results.get ⟨i, hi'⟩).html = (st.results.get ⟨j, hj'⟩).html := by
  rcases runBatch_ok_spec deid docs _ _ h with ⟨rs, hres, _, hlen, hget⟩
  have hres' : st.results = rs := by simpa using hres
  subst hres'
  refine ⟨hlen, ?_⟩
  intro i j hi hj hi' hj' htext
  have hdi := hget i hi hi'
  have hdj := hget j hj hj'
  have hall := analyzeDoc_text_determined deid _ _ _ _ htext hdi hdj
  exact ⟨hall.1, hall.2.1, hall.2.2.1, hall.2.2.2.1, hall.2.2.2.2.1,
    hall.2.2.2.2.2.1, hall.2.2.2.2.2.2.1, hall.2.2.2.2.2.2.2.2⟩

/-- Witness for the purity theorem: a concrete two-document batch with equal
texts and different filenames. -/
theorem batch_pipeline_pure_witness :
    ∃ st, analyze_batch false [("a.txt", "fever"), ("b.txt", "fever")] = Except.ok st ∧
      st.results.length = 2 := by
  refine ⟨_, rfl, ?_⟩
  have h1 := (batch_pipeline_pure false [("a.txt", "fever"), ("b.txt", "fever")] _ rfl).1
  exact h1.trans rfl

/-- **C6** (amended).  The `Dates Found` metric `len(all_dates)` is the *sum*
over documents of each document's distinct-date count, a date being counted
once per document that contains it (not the cardinality of the union). -/
theorem batch_dates_metric (deid : Bool) (docs : List (String × String))
    (st : BatchState) (h : analyze_batch deid docs = Except.ok st) :
    st.all_dates.length = (st.results.map (fun r => r.dates.length)).sum := by
  rcases runBatch_ok_spec deid docs _ _ h with ⟨rs, hres, hdates, _, _⟩
  have hres' : st.results = rs := by simpa using hres
  have hdates' : st.all_dates = (rs.map (fun r => r.dates)).flatten := by
    simpa using hdates
  rw [hres', hdates', List.length_flatten, List.map_map]
  rfl

/-- Witness for the dates-metric theorem at a concrete batch (also the
counterexample batch of the claim). -/
theorem batch_dates_metric_witness :
    ∃ st, analyze_batch false [("a.txt", "2025-01-01"), ("b.txt", "2025-01-01")] =
        Except.ok st ∧
      st.all_dates.length = (st.results.map (fun r => r.dates.length)).sum := by
  refine ⟨_, rfl, ?_⟩
  exact batch_dates_metric false [("a.txt", "2025-01-01"), ("b.txt", "2025-01-01")] _ rfl

/-- **C6** (counterexample).  In a two-document batch both containing the date
`2025-01-01`, the metric counts 2 while the union of the per-document date
sets has cardinality 1 — the claim's set-union reading is false. -/
theorem batch_dates_not_union :
    ∃ st, analyze_batch false [("a.txt", "2025-01-01"), ("b.txt", "2025-01-01")] =
        Except.ok st ∧
      st.all_dates.length = 2 ∧ (pySortedSet st.all_dates).length = 1 := by
  refine ⟨_, rfl, by decide, by decide⟩

/-! ## Characterization of the dosage scan as word-bounded tokens -/

/-- The dosage-token shape of the claim: a nonempty digit run followed by one
of the unit spellings of `DOSAGE_PATTERN`. -/
def isDosageToken (x : List Char) : Bool :=
  dosageUnits.any (fun u =>
    u.length + 1 ≤ x.length && (x.drop (x.length - u.length) == u) &&
    (x.take (x.length - u.length)).all Char.isDigit)

theorem isDosageToken_iff (x : List Char) :
    isDosageToken x = true ↔
      ∃ d u, x = d ++ u ∧ d ≠ [] ∧ d.all Char.isDigit = true ∧ u ∈ dosageUnits := by
  constructor
  · intro h
    rcases List.any_eq_true.mp h with ⟨u, hu, hcond⟩
    rcases Bool.and_eq_true .. |>.mp hcond with ⟨h12, h3⟩
    rcases Bool.and_eq_true .. |>.mp h12 with ⟨h1, h2⟩
    have h1' : u.length + 1 ≤ x.length := of_decide_eq_true h1
    have h2' : x.drop (x.length - u.length) = u := by simpa using h2
    refine ⟨x.take (x.length - u.length), u, ?_, ?_, h3, hu⟩
    · have hsplit : x = x.take (x.length - u.length) ++ x.drop (x.length - u.length) :=
        (List.take_append_drop _ x).symm
      rw [h2'] at hsplit
      exact hsplit
    · intro hc
      have := congrArg List.length hc
      simp at this
      omega
  · rintro ⟨d, u, rfl, hd, hdig, hu⟩
    refine List.any_eq_true.mpr ⟨u, hu, ?_⟩
    have hlen : (d ++ u).length - u.length = d.length := by
      simp [List.length_append]
    have hd1 : 1 ≤ d.length := by
      cases d with
      | nil => exact absurd rfl hd
      | cons a as => simp
    refine Bool.and_eq_true .. |>.mpr ⟨Bool.and_eq_true .. |>.mpr ⟨?_, ?_⟩, ?_⟩
    · have : u.length + 1 ≤ (d ++ u).length := by
        simp [List.length_append]; omega
      exact decide_eq_true this
    · rw [hlen]
      simp [List.drop_left]
    · rw [hlen]
      simpa [List.take_left] using hdig

/-! ### Maximal-run and alternation helpers -/

theorem take_countWhile_eq (p : Char → Bool) (l : List Char) :
    l.take (countWhile p l) = l.takeWhile p :=
  (List.prefix_iff_eq_take.mp (List.takeWhile_prefix p)).symm

theorem head_drop_countWhile (p : Char → Bool) (l : List Char) (c : Char)
    (h : (l.drop (countWhile p l)).head? = some c) : p c = false := by
  induction l with
  | nil => simp at h
  | cons a as ih =>
    by_cases hp : p a
    · rw [show countWhile p (a :: as) = countWhile p as + 1 by
        simp [countWhile, List.takeWhile_cons, hp]] at h
      exact ih (by simpa using h)
    · rw [show countWhile p (a :: as) = 0 by
        simp [countWhile, List.takeWhile_cons, hp]] at h
      simp only [List.drop_zero, List.head?_cons, Option.some.injEq] at h
      subst h
      exact Bool.eq_false_iff.mpr hp

theorem all_take_countWhile (p : Char → Bool) (l : List Char) :
    (l.take (countWhile p l)).all p = true := by
  rw [take_countWhile_eq]
  exact List.all_eq_true.mpr (fun c hc => List.mem_takeWhile_imp hc)

theorem countWhile_append_of (p : Char → Bool) (d rest : List Char)
    (hall : d.all p = true) (hrest : ∀ c, rest.head? = some c → p c = false) :
    countWhile p (d ++ rest) = d.length := by
  induction d with
  | nil =>
    cases rest with
    | nil => rfl
    | cons c cs =>
      have := hrest c rfl
      simp [countWhile, List.takeWhile_cons, this]
  | cons a as ih =>
    have ha := List.all_eq_true.mp hall a (by simp)
    have hall' : as.all p = true :=
      List.all_eq_true.mpr (fun c hc => List.all_eq_true.mp hall c (by simp [hc]))
    have ih' := ih hall'
    show countWhile p (a :: (as ++ rest)) = as.length + 1
    rw [show countWhile p (a :: (as ++ rest)) = countWhile p (as ++ rest) + 1 by
      simp [countWhile, List.takeWhile_cons, ha]]
    rw [ih']

theorem tryEach_eq_some {α β : Type} (l : List α) (f : α → Option β) (b : β)
    (h : tryEach l f = some b) : ∃ a ∈ l, f a = some b := by
  induction l with
  | nil => simp [tryEach] at h
  | cons a as ih =>
    rw [tryEach] at h
    cases hf : f a with
    | some c =>
      rw [hf] at h
      simp only [Option.some_orElse] at h
      exact ⟨a, by simp, by rw [hf, h]⟩
    | none =>
      rw [hf] at h
      simp only [Option.none_orElse] at h
      rcases ih h with ⟨a', ha', hfa'⟩
      exact ⟨a', by simp [ha'], hfa'⟩

theorem tryEach_append_some {α β : Type} (l1 : List α) (a : α) (l2 : List α)
    (f : α → Option β) (b : β) (h1 : ∀ x ∈ l1, f x = none) (ha : f a = some b) :
    tryEach (l1 ++ a :: l2) f = some b := by
  induction l1 with
  | nil => simp [tryEach, ha]
  | cons x xs ih =>
    have hx := h1 x (by simp)
    rw [List.cons_append, tryEach, hx]
    simpa using ih (fun y hy => h1 y (by simp [hy]))

/-! ### Facts about the unit spellings (checked by computation) -/

theorem dosageUnits_ok :
    dosageUnits.all (fun u =>
      !u.isEmpty &&
      (match u with | c :: _ => !c.isDigit | [] => false) &&
      u.all isPyWord) = true := by decide

theorem dosageUnits_nonPrefix :
    dosageUnits.all (fun a => dosageUnits.all (fun b =>
      (a == b) || !(a.isPrefixOf b))) = true := by decide

theorem dosageUnits_nodup : dosageUnits.Nodup := by decide

theorem unit_ne_nil {u : List Char} (hu : u ∈ dosageUnits) : u ≠ [] := by
  have h := List.all_eq_true.mp dosageUnits_ok u hu
  intro hc
  subst hc
  simp at h

theorem unit_head_not_digit {u : List Char} (hu : u ∈ dosageUnits) {c : Char}
    {cs : List Char} (he : u = c :: cs) : c.isDigit = false := by
  have h := List.all_eq_true.mp dosageUnits_ok u hu
  subst he
  rcases Bool.and_eq_true .. |>.mp h with ⟨h12, _⟩
  rcases Bool.and_eq_true .. |>.mp h12 with ⟨_, h2⟩
  simpa using h2

theorem unit_all_word {u : List Char} (hu : u ∈ dosageUnits) :
    u.all isPyWord = true := by
  have h := List.all_eq_true.mp dosageUnits_ok u hu
  rcases Bool.and_eq_true .. |>.mp h with ⟨_, h3⟩
  exact h3

theorem unit_not_prefix {a b : List Char} (ha : a ∈ dosageUnits)
    (hb : b ∈ dosageUnits) (hne : a ≠ b) : ¬ (a <+: b) := by
  have h := List.all_eq_true.mp (List.all_eq_true.mp dosageUnits_nonPrefix a ha) b hb
  rcases Bool.or_eq_true .. |>.mp h with h1 | h1
  · exact absurd (by simpa using h1) hne
  · intro hc
    rw [Bool.not_eq_true', ← Bool.not_eq_true] at h1
    exact h1 (List.isPrefixOf_iff_prefix.mpr hc)

/-! ### Word-character facts about dosage tokens -/

theorem isPyWord_of_isDigit {c : Char} (h : c.isDigit = true) :
    isPyWord c = true := by
  simp [isPyWord, Char.isAlphanum, h]

theorem isDosageToken_ne_nil {x : List Char} (h : isDosageToken x = true) :
    x ≠ [] := by
  rcases (isDosageToken_iff x).mp h with ⟨d, u, rfl, hd, _, _⟩
  cases d with
  | nil => exact absurd rfl hd
  | cons a as => simp

theorem isDosageToken_all_word {x : List Char} (h : isDosageToken x = true) :
    x.all isPyWord = true := by
  rcases (isDosageToken_iff x).mp h with ⟨d, u, rfl, _, hdig, hu⟩
  rw [List.all_append]
  refine Bool.and_eq_true .. |>.mpr ⟨?_, unit_all_word hu⟩
  exact List.all_eq_true.mpr
    (fun c hc => isPyWord_of_isDigit (List.all_eq_true.mp hdig c hc))

theorem isDosageToken_getLast_word {x : List Char} (h : isDosageToken x = true) :
    isPyWordOpt x.getLast? = true := by
  have hne := isDosageToken_ne_nil h
  rcases List.getLast?_isSome.mpr hne |> Option.isSome_iff_exists.mp with ⟨c, hc⟩
  rw [hc]
  exact List.all_eq_true.mp (isDosageToken_all_word h) c
    (List.mem_of_mem_getLast? hc)

/-! ### The left-context of a scan position -/

/-- Word-ness of the character immediately to the left of the text region after
`u`, where `prev` is the character to the left of `u` itself. -/
def leftCtxWord (prev : Option Char) (u : List Char) : Bool :=
  match u.getLast? with
  | some c => isPyWord c
  | none => isPyWordOpt prev

theorem leftCtxWord_nil (prev : Option Char) :
    leftCtxWord prev [] = isPyWordOpt prev := rfl

theorem leftCtxWord_of_ne_nil (prev : Option Char) {u : List Char} (h : u ≠ []) :
    leftCtxWord prev u = isPyWordOpt u.getLast? := by
  rcases List.getLast?_isSome.mpr h |> Option.isSome_iff_exists.mp with ⟨c, hc⟩
  rw [leftCtxWord, hc]
  rfl

theorem leftCtxWord_cons (prev : Option Char) (c : Char) (u : List Char) :
    leftCtxWord prev (c :: u) = leftCtxWord (some c) u := by
  cases u with
  | nil => rfl
  | cons b bs =>
    rw [leftCtxWord, leftCtxWord, List.getLast?_cons_cons]
    cases hbl : (b :: bs).getLast? with
    | none => exact absurd hbl (by simp)
    | some d => rfl

theorem leftCtxWord_append_of_ne_nil (prev prev' : Option Char) (u0 u' : List Char)
    (h : u' ≠ []) : leftCtxWord prev (u0 ++ u') = leftCtxWord prev' u' := by
  rw [leftCtxWord_of_ne_nil prev (by simp [h]), leftCtxWord_of_ne_nil prev' h,
    List.getLast?_append_of_ne_nil u0 h]

theorem getLast?_drop_of_lt {l : List Char} {n : Nat} (h : n < l.length) :
    (l.drop n).getLast? = l.getLast? := by
  induction l generalizing n with
  | nil => simp at h
  | cons a as ih =>
    cases n with
    | zero => rfl
    | succ m =>
      have hm : m < as.length := by simpa using h
      rw [List.drop_succ_cons, ih hm]
      cases as with
      | nil => simp at hm
      | cons b bs => rw [List.getLast?_cons_cons]

theorem bAfterWord_eq (l : List Char) : bAfterWord l = !isPyWordOpt l.head? := by
  cases l <;> rfl

/-! ### Soundness and completeness of the dosage match attempt -/

theorem dosageMatchAt_some {prev : Option Char} {s : List Char} {k : Nat}
    (h : dosageMatchAt prev s = some k) :
    isPyWordOpt prev = false ∧
    ∃ x v, s = x ++ v ∧ x.length = k ∧ isDosageToken x = true ∧
      isPyWordOpt v.head? = false := by
  rw [dosageMatchAt] at h
  cases hb' : pyBoundary prev s.head? with
  | false => rw [hb'] at h; simp at h
  | true =>
    rw [hb'] at h
    simp only [Bool.not_true, Bool.false_eq_true, if_false] at h
    by_cases hn' : countWhile Char.isDigit s = 0
    · rw [if_pos hn'] at h; simp at h
    rw [if_neg hn'] at h
    rcases tryEach_eq_some _ _ _ h with ⟨u, hu, hcase⟩
    by_cases hcond : (u.isPrefixOf (s.drop (countWhile Char.isDigit s)) &&
        bAfterWord ((s.drop (countWhile Char.isDigit s)).drop u.length)) = true
    swap
    · rw [if_neg hcond] at hcase; simp at hcase
    rw [if_pos hcond] at hcase
    rcases Bool.and_eq_true .. |>.mp hcond with ⟨hpre, hafter⟩
    have hk : countWhile Char.isDigit s + u.length = k := by
      simpa using hcase
    have hd_all : (s.take (countWhile Char.isDigit s)).all Char.isDigit = true :=
      all_take_countWhile _ s
    have hd_len : (s.take (countWhile Char.isDigit s)).length =
        countWhile Char.isDigit s := by
      rw [take_countWhile_eq]; rfl
    rcases List.isPrefixOf_iff_prefix.mp hpre with ⟨w, hw⟩
    have hhead : ∃ c cs, s = c :: cs ∧ c.isDigit = true := by
      cases hs : s with
      | nil =>
        rw [hs] at hn'
        exact absurd rfl hn'
      | cons a as =>
        refine ⟨a, as, rfl, ?_⟩
        have ha : a ∈ s.take (countWhile Char.isDigit s) := by
          rw [hs]
          cases hnn : countWhile Char.isDigit (a :: as) with
          | zero => rw [hs] at hn'; exact absurd hnn hn'
          | succ m => simp
        exact List.all_eq_true.mp hd_all a ha
    rcases hhead with ⟨c, cs, hs, hcdig⟩
    have hprev : isPyWordOpt prev = false := by
      have hw' : isPyWordOpt s.head? = true := by
        rw [hs]; simpa using isPyWord_of_isDigit hcdig
      rw [pyBoundary, hw'] at hb'
      revert hb'
      cases isPyWordOpt prev <;> simp
    refine ⟨hprev, s.take (countWhile Char.isDigit s) ++ u, w, ?_, ?_, ?_, ?_⟩
    · have hsp : s = s.take (countWhile Char.isDigit s) ++ (u ++ w) := by
        rw [hw, List.take_append_drop]
      simpa [List.append_assoc] using hsp
    · rw [List.length_append, hd_len, hk]
    · refine (isDosageToken_iff _).mpr ⟨_, u, rfl, ?_, hd_all, hu⟩
      intro hc
      rw [hc] at hd_len
      exact hn' hd_len.symm
    · rw [bAfterWord_eq] at hafter
      have hww : (s.drop (countWhile Char.isDigit s)).drop u.length = w := by
        rw [← hw, List.drop_left]
      rw [hww] at hafter
      revert hafter
      cases isPyWordOpt w.head? <;> simp

theorem dosageMatchAt_complete (prev : Option Char) (x v : List Char)
    (hprev : isPyWordOpt prev = false) (htok : isDosageToken x = true)
    (hv : isPyWordOpt v.head? = false) :
    dosageMatchAt prev (x ++ v) = some x.length := by
  rcases (isDosageToken_iff x).mp htok with ⟨d, u, rfl, hd, hdig, hu⟩
  rcases (List.exists_cons_of_ne_nil (unit_ne_nil hu)) with ⟨uc, ucs, huc⟩
  rcases (List.exists_cons_of_ne_nil hd) with ⟨dc, dcs, hdc⟩
  have hdcdig : dc.isDigit = true := by
    apply List.all_eq_true.mp hdig
    rw [hdc]; simp
  have hn : countWhile Char.isDigit ((d ++ u) ++ v) = d.length := by
    rw [List.append_assoc]
    refine countWhile_append_of _ _ _ hdig ?_
    intro c hc
    rw [huc] at hc
    simp only [List.cons_append, List.head?_cons, Option.some.injEq] at hc
    subst hc
    exact unit_head_not_digit hu huc
  rw [dosageMatchAt]
  have hhead : isPyWordOpt ((d ++ u) ++ v).head? = true := by
    rw [hdc]
    simpa using isPyWord_of_isDigit hdcdig
  have hb : pyBoundary prev ((d ++ u) ++ v).head? = true := by
    rw [pyBoundary, hprev, hhead]; rfl
  rw [hb]
  simp only [Bool.not_true, Bool.false_eq_true, if_false]
  rw [hn]
  have hdlen : d.length ≠ 0 := by
    rw [hdc]; simp
  rw [if_neg hdlen]
  have hdrop : ((d ++ u) ++ v).drop d.length = u ++ v := by
    rw [List.append_assoc, List.drop_left]
  rw [hdrop]
  -- split the unit list at u
  rcases List.append_of_mem hu with ⟨l1, l2, hsplit⟩
  have hnodup := dosageUnits_nodup
  rw [hsplit] at hnodup
  have hu_not_l1 : u ∉ l1 := by
    intro hc
    rcases (List.nodup_append.mp hnodup) with ⟨_, _, hdisj⟩
    exact hdisj hc (by simp)
  rw [hsplit, List.length_append]
  refine tryEach_append_some l1 u l2 _ _ ?_ ?_
  · intro a ha
    have hamem : a ∈ dosageUnits := by rw [hsplit]; simp [ha]
    have hane : a ≠ u := by
      intro hc; subst hc; exact hu_not_l1 ha
    have hnp : ¬ (a <+: u ++ v) := by
      intro hc
      rcases List.prefix_or_prefix_of_prefix hc (List.prefix_append u v) with h1 | h1
      · exact unit_not_prefix hamem hu hane h1
      · exact unit_not_prefix hu hamem (fun hcc => hane hcc.symm) h1
    have hcnd : ¬ ((a.isPrefixOf (u ++ v) &&
        bAfterWord ((u ++ v).drop a.length)) = true) := by
      intro hcc
      rcases Bool.and_eq_true .. |>.mp hcc with ⟨hp, _⟩
      exact hnp (List.isPrefixOf_iff_prefix.mp hp)
    exact if_neg hcnd
  · have hcnd : (u.isPrefixOf (u ++ v) &&
        bAfterWord ((u ++ v).drop u.length)) = true := by
      refine Bool.and_eq_true .. |>.mpr ⟨?_, ?_⟩
      · exact List.isPrefixOf_iff_prefix.mpr (List.prefix_append u v)
      · rw [List.drop_left, bAfterWord_eq, hv]; rfl
    exact if_pos hcnd

/-! ### The dosage scan finds exactly the word-bounded dosage tokens -/

theorem mem_dosage_findAllScan (fuel : Nat) (prev : Option Char) (s : List Char)
    (hfuel : s.length ≤ fuel) (x : List Char) :
    x ∈ findAllScan dosageMatchAt fuel prev s ↔
      ∃ u v, s = u ++ (x ++ v) ∧ leftCtxWord prev u = false ∧
        isPyWordOpt v.head? = false ∧ isDosageToken x = true := by
  induction fuel generalizing prev s with
  | zero =>
    have hs : s = [] := List.eq_nil_of_length_eq_zero (Nat.le_zero.mp hfuel)
    subst hs
    rw [findAllScan]
    simp only [List.not_mem_nil, false_iff]
    rintro ⟨u, v, hsplit, _, _, htok⟩
    have hlen := congrArg List.length hsplit
    simp only [List.length_nil, List.length_append] at hlen
    exact isDosageToken_ne_nil htok
      (List.eq_nil_of_length_eq_zero (by omega))
  | succ fuel ih =>
    cases s with
    | nil =>
      rw [findAllScan]
      simp only [List.not_mem_nil, false_iff]
      rintro ⟨u, v, hsplit, _, _, htok⟩
      have hlen := congrArg List.length hsplit
      simp only [List.length_nil, List.length_append] at hlen
      exact isDosageToken_ne_nil htok
        (List.eq_nil_of_length_eq_zero (by omega))
    | cons c rest =>
      have hfuel' : rest.length ≤ fuel := by simpa using hfuel
      cases hm : dosageMatchAt prev (c :: rest) with
      | none =>
        simp only [findAllScan, hm]
        rw [ih (some c) rest hfuel']
        constructor
        · rintro ⟨u', v', hsplit', hL, hv, htok⟩
          refine ⟨c :: u', v', by simp [hsplit'], ?_, hv, htok⟩
          rw [leftCtxWord_cons]
          exact hL
        · rintro ⟨u, v, hsplit, hL, hv, htok⟩
          cases u with
          | nil =>
            exfalso
            simp only [List.nil_append] at hsplit
            have hcomp := dosageMatchAt_complete prev x v
              (by rw [leftCtxWord_nil] at hL; exact hL) htok hv
            rw [← hsplit, hm] at hcomp
            simp at hcomp
          | cons c0 u' =>
            have hinj : c0 = c ∧ rest = u' ++ (x ++ v) := by
              simp only [List.cons_append] at hsplit
              injection hsplit with h1 h2
              exact ⟨h1.symm, h2⟩
            refine ⟨u', v, hinj.2, ?_, hv, htok⟩
            rw [← leftCtxWord_cons prev c u', ← hinj.1]
            exact hL
      | some k =>
        cases k with
        | zero =>
          rcases dosageMatchAt_some hm with ⟨_, x0, v0, _, hlen0, htok0, _⟩
          rw [List.eq_nil_of_length_eq_zero hlen0] at htok0
          exact absurd htok0 (by decide)
        | succ k =>
          rcases dosageMatchAt_some hm with ⟨hprev, x0, v0, hs0, hlen0, htok0, hv0⟩
          have htake : (c :: rest).take (k + 1) = x0 := by
            rw [hs0]; exact List.take_left' hlen0
          have hdrop : (c :: rest).drop (k + 1) = v0 := by
            rw [hs0]; exact List.drop_left' hlen0
          have hget : (c :: rest).get? k = x0.getLast? := by
            rw [hs0, List.get?_append (by omega), List.getLast?_eq_get?, hlen0,
              Nat.add_sub_cancel]
          have hfuel2 : v0.length ≤ fuel := by
            have hl := congrArg List.length hs0
            simp only [List.length_cons, List.length_append] at hl
            omega
          simp only [findAllScan, hm]
          rw [htake, hdrop, hget, List.mem_cons, ih x0.getLast? v0 hfuel2]
          constructor
          · rintro (rfl | ⟨u', v', hsplit', hL, hv', htok'⟩)
            · exact ⟨[], v0, by rw [hs0]; rfl,
                by rw [leftCtxWord_nil]; exact hprev, hv0, htok0⟩
            · have hu'ne : u' ≠ [] := by
                intro hc
                subst hc
                rw [leftCtxWord_nil] at hL
                exact absurd (isDosageToken_getLast_word htok0) (by rw [hL]; simp)
              refine ⟨x0 ++ u', v', ?_, ?_, hv', htok'⟩
              · rw [hs0, hsplit']; simp [List.append_assoc]
              · rw [leftCtxWord_append_of_ne_nil prev x0.getLast? x0 u' hu'ne]
                exact hL
          · rintro ⟨u, v, hsplit, hL, hv', htok'⟩
            by_cases hu : u = []
            · subst hu
              left
              simp only [List.nil_append] at hsplit
              have hcomp := dosageMatchAt_complete prev x v
                (by rw [leftCtxWord_nil] at hL; exact hL) htok' hv'
              rw [← hsplit, hm] at hcomp
              have hxlen : x.length = k + 1 := by
                simpa using hcomp.symm
              have h1 : (x ++ v).take x.length = x := List.take_left x v
              rw [← hsplit, hxlen, htake] at h1
              exact h1.symm
            · right
              have hLu : isPyWordOpt u.getLast? = false := by
                rw [← leftCtxWord_of_ne_nil prev hu]; exact hL
              have hlen_pos : 1 ≤ u.length := by
                cases u with
                | nil => exact absurd rfl hu
                | cons _ _ => simp
              have hulen : ¬ (u.length ≤ k + 1) := by
                intro hle
                rcases Option.isSome_iff_exists.mp (List.getLast?_isSome.mpr hu)
                  with ⟨cu, hcu⟩
                have e1 : u.getLast? = u.get? (u.length - 1) := List.getLast?_eq_get? ..
                have e2 : (c :: rest).get? (u.length - 1) = u.get? (u.length - 1) := by
                  rw [hsplit]
                  exact List.get?_append (by omega)
                have e3 : (c :: rest).get? (u.length - 1) = x0.get? (u.length - 1) := by
                  rw [hs0]
                  exact List.get?_append (by omega)
                have e4 : x0.get? (u.length - 1) = some cu := by
                  rw [← e3, e2, ← e1, hcu]
                have hmem : cu ∈ x0 := List.get?_mem e4
                have hword := List.all_eq_true.mp (isDosageToken_all_word htok0) cu hmem
                rw [hcu] at hLu
                simp only [isPyWordOpt] at hLu
                rw [hword] at hLu
                cases hLu
              have htk : u.take (k + 1) = x0 := by
                have h1 : (u ++ (x ++ v)).take (k + 1) = u.take (k + 1) :=
                  List.take_append_of_le_length (by omega)
                rw [← hsplit, htake] at h1
                exact h1.symm
              have hv0eq : v0 = u.drop (k + 1) ++ (x ++ v) := by
                rw [← hdrop, hsplit]
                exact List.drop_append_of_le_length (by omega)
              have hne : u.drop (k + 1) ≠ [] := by
                intro hc
                have := congrArg List.length hc
                simp only [List.length_drop, List.length_nil] at this
                omega
              refine ⟨u.drop (k + 1), v, hv0eq, ?_, hv', htok'⟩
              rw [leftCtxWord_of_ne_nil _ hne, getLast?_drop_of_lt (by omega)]
              exact hLu

theorem leftCtxWord_none (u : List Char) :
    leftCtxWord none u = isPyWordOpt u.getLast? := by
  rw [leftCtxWord]
  cases u.getLast? with
  | none => rfl
  | some c => rfl

theorem mem_map_mk (l : List (List Char)) (x : String) :
    x ∈ l.map (fun c => (⟨c⟩ : String)) ↔ x.data ∈ l := by
  cases x with
  | mk d =>
    simp only [List.mem_map]
    constructor
    · rintro ⟨a, ha, hae⟩
      have : a = d := by injection hae
      exact this ▸ ha
    · intro hd
      exact ⟨d, hd, rfl⟩

/-- **C7** (amended).  `find_medications` returns exactly the sorted union of
(a) the medication-vocabulary terms occurring case-insensitively in the text
and (b) the word-bounded substrings of shape `<digits><unit>` with the unit
spelled exactly `mg`, `MG`, `ml`, `mL`, `g`, `units` or `IU` (the dosage
pattern is case-sensitive). -/
theorem find_medications_characterization (t : String) :
    (∀ x : String, x ∈ find_medications t ↔
      ((x ∈ MEDICATION_KEYWORDS ∧ kwHit t x = true) ∨
       ∃ u v, t.data = u ++ (x.data ++ v) ∧ isPyWordOpt u.getLast? = false ∧
         isPyWordOpt v.head? = false ∧ isDosageToken x.data = true)) ∧
    (find_medications t).Pairwise (fun a b => pyStrLt a b = true) := by
  constructor
  · intro x
    rw [find_medications, mem_pySortedSet, List.mem_append, List.mem_filter,
      mem_map_mk, dosage_findall,
      mem_dosage_findAllScan t.data.length none t.data le_rfl x.data]
    constructor
    · rintro (h | ⟨u, v, hsplit, hL, hv, htok⟩)
      · exact Or.inl h
      · refine Or.inr ⟨u, v, hsplit, ?_, hv, htok⟩
        rw [← leftCtxWord_none]
        exact hL
    · rintro (h | ⟨u, v, hsplit, hL, hv, htok⟩)
      · exact Or.inl h
      · refine Or.inr ⟨u, v, hsplit, ?_, hv, htok⟩
        rw [leftCtxWord_none]
        exact hL
  · exact pairwise_pySortedSet _

/-! ## Annotation round-trip: stripping markers and decoding escapes

The highlight passes only ever *insert* whole marker strings (`<span
class='…'>` around a verbatim matched segment, via the backreference, and
`</span>` after it).  The escaped base text contains no `<`, each marker
contains exactly one `<` (at its head), and no marker is a prefix of another;
so every occurrence of a marker string in the final markup is an intact
inserted marker, and removing marker occurrences until none remain recovers
the escaped text exactly. -/

/-- The four marker strings the highlight pass inserts. -/
def markerTokens : List (List Char) :=
  [openTok ("disease".data), openTok ("symptom".data), openTok ("med".data), closeTok]

/-- `Ins base n s`: `s` is obtained from `base` by `n` insertions of whole
marker strings (each insertion may split earlier ones). -/
inductive Ins (base : List Char) : Nat → List Char → Prop
  | refl : Ins base 0 base
  | step (n : Nat) (u v tok : List Char) : tok ∈ markerTokens →
      Ins base n (u ++ v) → Ins base (n + 1) (u ++ tok ++ v)

theorem markerTokens_shape :
    markerTokens.all (fun t =>
      match t with
      | c :: rest => c = '<' && rest.all (fun d => d ≠ '<')
      | [] => false) = true := by decide

theorem markerTokens_prefix_free :
    markerTokens.all (fun a => markerTokens.all (fun b =>
      (a == b) || !(a.isPrefixOf b))) = true := by decide

theorem marker_shape {tok : List Char} (h : tok ∈ markerTokens) :
    ∃ t, tok = '<' :: t ∧ t.all (fun d => d ≠ '<') = true := by
  have hs := List.all_eq_true.mp markerTokens_shape tok h
  cases tok with
  | nil => simp at hs
  | cons c rest =>
    rcases Bool.and_eq_true .. |>.mp hs with ⟨h1, h2⟩
    exact ⟨rest, by rw [show c = '<' from by simpa using h1], h2⟩

theorem marker_ne_nil {tok : List Char} (h : tok ∈ markerTokens) : tok ≠ [] := by
  rcases marker_shape h with ⟨t, rfl, _⟩
  simp

theorem marker_prefix_eq {a b : List Char} (ha : a ∈ markerTokens)
    (hb : b ∈ markerTokens) (hp : a <+: b) : a = b := by
  by_cases he : a = b
  · exact he
  · have h := List.all_eq_true.mp
      (List.all_eq_true.mp markerTokens_prefix_free a ha) b hb
    rcases Bool.or_eq_true .. |>.mp h with h1 | h1
    · exact absurd (by simpa using h1) he
    · rw [Bool.not_eq_true'] at h1
      exact absurd (List.isPrefixOf_iff_prefix.mpr hp) (by simp [h1])

theorem ins_count_le {base : List Char} :
    ∀ {n s}, Ins base n s → n ≤ s.length := by
  intro n s h
  induction h with
  | refl => exact Nat.zero_le _
  | step m u v tok htok _ ih =>
    have := marker_ne_nil htok
    have htl : 1 ≤ tok.length := by
      cases tok with
      | nil => exact absurd rfl this
      | cons _ _ => simp
    simp only [List.length_append] at ih ⊢
    omega

/-- Prepending a fixed block preserves the insertion relation. -/
theorem ins_prepend {base s : List Char} (x : List Char) {n : Nat}
    (h : Ins base n s) : Ins (x ++ base) n (x ++ s) := by
  induction h with
  | refl => exact Ins.refl
  | step m u v tok htok _ ih =>
    have := Ins.step m (x ++ u) v tok htok (by simpa [List.append_assoc] using ih)
    simpa [List.append_assoc] using this

theorem ins_trans {base s s' : List Char} {n m : Nat}
    (h1 : Ins base n s) (h2 : Ins s m s') : Ins base (n + m) s' := by
  induction h2 with
  | refl => exact h1
  | step m' u v tok htok _ ih =>
    exact Nat.add_succ n m' ▸ Ins.step (n + m') u v tok htok ih

theorem append_nil_of_self_eq {α : Type} {l w : List α} (h : l = l ++ w) : w = [] := by
  have := congrArg List.length h
  simp only [List.length_append] at this
  exact List.eq_nil_of_length_eq_zero (by omega)

/-- Two markers starting at the same position are the same marker
(prefix-freeness). -/
theorem marker_append_inj {tok tok' v b : List Char} (htok : tok ∈ markerTokens)
    (htok' : tok' ∈ markerTokens) (h : tok ++ v = tok' ++ b) :
    tok = tok' ∧ v = b := by
  rcases List.append_eq_append_iff.mp h with ⟨w, h1, h2⟩ | ⟨w, h1, h2⟩
  · have he : tok = tok' := marker_prefix_eq htok htok' ⟨w, h1.symm⟩
    subst he
    have hw : w = [] := append_nil_of_self_eq h1
    subst hw
    exact ⟨rfl, by simpa using h2⟩
  · have he : tok' = tok := marker_prefix_eq htok' htok ⟨w, h1.symm⟩
    subst he
    have hw : w = [] := append_nil_of_self_eq h1
    subst hw
    exact ⟨rfl, by simpa using h2.symm⟩

/-- A marker string cannot have a `<` strictly inside it. -/
theorem marker_no_inner_lt {tok w w2 : List Char} (htok : tok ∈ markerTokens)
    (hsplit : tok = w ++ w2) (hw : w ≠ []) {r : List Char}
    (hw2 : w2 = '<' :: r) : False := by
  rcases marker_shape htok with ⟨t, hshape, hall⟩
  cases w with
  | nil => exact absurd rfl hw
  | cons wc ws =>
    rw [hshape] at hsplit
    simp only [List.cons_append] at hsplit
    injection hsplit with h1 h2
    have hmem : '<' ∈ t := by
      rw [h2, hw2]
      simp
    have := List.all_eq_true.mp hall '<' hmem
    simp at this

/-- Comparing two marker decompositions of the same string: either they are the
same occurrence, or they are disjoint (one entirely to the left of the other). -/
theorem two_decomp {a tok' b u tok v : List Char}
    (htok : tok ∈ markerTokens) (htok' : tok' ∈ markerTokens)
    (h : a ++ tok' ++ b = u ++ tok ++ v) :
    (a = u ∧ tok' = tok ∧ b = v) ∨
    (∃ w, a = u ++ tok ++ w ∧ v = w ++ tok' ++ b) ∨
    (∃ w, u = a ++ tok' ++ w ∧ b = w ++ tok ++ v) := by
  have h' : a ++ (tok' ++ b) = u ++ (tok ++ v) := by
    simpa [List.append_assoc] using h
  rcases List.append_eq_append_iff.mp h' with ⟨w, hw1, hw2⟩ | ⟨w, hw1, hw2⟩
  · -- u = a ++ w, tok' ++ b = w ++ (tok ++ v)
    rcases List.append_eq_append_iff.mp hw2 with ⟨w2, hw3, hw4⟩ | ⟨w2, hw3, hw4⟩
    · -- w = tok' ++ w2, b = w2 ++ (tok ++ v)
      refine Or.inr (Or.inr ⟨w2, ?_, ?_⟩)
      · rw [hw1, hw3]; simp [List.append_assoc]
      · simpa [List.append_assoc] using hw4
    · -- tok' = w ++ w2, tok ++ v = w2 ++ b
      cases hwn : w with
      | nil =>
        subst hwn
        simp only [List.nil_append, List.append_nil] at hw3 hw1
        subst hw3
        rcases marker_append_inj htok htok' hw4 with ⟨he, hvb⟩
        exact Or.inl ⟨hw1.symm, he.symm, hvb.symm⟩
      | cons wc ws =>
        cases hw2n : w2 with
        | nil =>
          subst hw2n
          simp only [List.append_nil] at hw3
          simp only [List.nil_append] at hw4
          refine Or.inr (Or.inr ⟨[], ?_, ?_⟩)
          · rw [hw1, hw3]; simp
          · simpa using hw4.symm
        | cons w2c w2s =>
          exfalso
          have hw2head : w2c = '<' := by
            rcases marker_shape htok with ⟨t, hts, _⟩
            rw [hts, hw2n] at hw4
            simp only [List.cons_append] at hw4
            injection hw4 with h1 _
            exact h1.symm
          exact marker_no_inner_lt htok' hw3 (by rw [hwn]; simp)
            (by rw [hw2n, hw2head])
  · -- a = u ++ w, tok ++ v = w ++ (tok' ++ b)
    rcases List.append_eq_append_iff.mp hw2 with ⟨w2, hw3, hw4⟩ | ⟨w2, hw3, hw4⟩
    · -- w = tok ++ w2, v = w2 ++ (tok' ++ b)
      refine Or.inr (Or.inl ⟨w2, ?_, ?_⟩)
      · rw [hw1, hw3]; simp [List.append_assoc]
      · simpa [List.append_assoc] using hw4
    · -- tok = w ++ w2, tok' ++ b = w2 ++ v
      cases hwn : w with
      | nil =>
        subst hwn
        simp only [List.nil_append, List.append_nil] at hw3 hw1
        subst hw3
        rcases marker_append_inj htok' htok hw4 with ⟨he, hvb⟩
        exact Or.inl ⟨hw1, he, hvb⟩
      | cons wc ws =>
        cases hw2n : w2 with
        | nil =>
          subst hw2n
          simp only [List.append_nil] at hw3
          simp only [List.nil_append] at hw4
          refine Or.inr (Or.inl ⟨[], ?_, ?_⟩)
          · rw [hw1, hw3]; simp
          · simpa using hw4.symm
        | cons w2c w2s =>
          exfalso
          have hw2head : w2c = '<' := by
            rcases marker_shape htok' with ⟨t, hts, _⟩
            rw [hts, hw2n] at hw4
            simp only [List.cons_append] at hw4
            injection hw4 with h1 _
            exact h1.symm
          exact marker_no_inner_lt htok hw3 (by rw [hwn]; simp)
            (by rw [hw2n, hw2head])

/-- Removing any marker occurrence from an inserted-marker string removes
exactly one insertion.  Needs the base to be `<`-free: markers contain `<`, so
no occurrence can sit inside pure base text. -/
theorem ins_remove {base : List Char} (hbase : ∀ c ∈ base, c ≠ '<') :
    ∀ {n s}, Ins base n s → ∀ {u tok v}, tok ∈ markerTokens →
      s = u ++ tok ++ v → ∃ m, n = m + 1 ∧ Ins base m (u ++ v) := by
  intro n s hins
  induction hins with
  | refl =>
    intro u tok v htok hs
    exfalso
    rcases marker_shape htok with ⟨t, rfl, _⟩
    have : '<' ∈ base := by
      rw [hs]; simp
    exact hbase '<' this rfl
  | step m a b tok' htok' hprev ih =>
    intro u tok v htok hs
    rcases two_decomp htok htok' hs with ⟨rfl, rfl, rfl⟩ | ⟨w, haw, hvw⟩ | ⟨w, huw, hbw⟩
    · exact ⟨m, rfl, hprev⟩
    · -- the removed occurrence lies inside `a`
      have hab : a ++ b = u ++ tok ++ (w ++ b) := by
        rw [haw]; simp [List.append_assoc]
      rcases ih htok (by simpa [List.append_assoc] using hab) with ⟨m0, hm0, hins0⟩
      refine ⟨m0 + 1, by omega, ?_⟩
      have hstep := Ins.step m0 (u ++ w) b tok' htok'
        (by simpa [List.append_assoc] using hins0)
      have : u ++ v = (u ++ w) ++ tok' ++ b := by
        rw [hvw]; simp [List.append_assoc]
      rw [this]
      exact hstep
    · -- the removed occurrence lies inside `b`
      have hab : a ++ b = (a ++ w) ++ tok ++ v := by
        rw [hbw]; simp [List.append_assoc]
      rcases ih htok hab with ⟨m0, hm0, hins0⟩
      refine ⟨m0 + 1, by omega, ?_⟩
      have hstep := Ins.step m0 a (w ++ v) tok' htok'
        (by simpa [List.append_assoc] using hins0)
      have : u ++ v = a ++ tok' ++ (w ++ v) := by
        rw [huw]; simp [List.append_assoc]
      rw [this]
      exact hstep

/-! ### Stripping marker occurrences to a fixed point -/

/-- Find the leftmost occurrence of any marker string: returns the split
`(before, marker, after)`. -/
def findTokenSplit : List Char → Option (List Char × List Char × List Char)
  | [] => none
  | c :: rest =>
    match tryEach markerTokens
        (fun tok => if tok.isPrefixOf (c :: rest) then some tok else none) with
    | some tok => some ([], tok, (c :: rest).drop tok.length)
    | none =>
      match findTokenSplit rest with
      | some (u, tok, v) => some (c :: u, tok, v)
      | none => none

/-- Remove one leftmost marker occurrence at a time, to a fixed point
(`fuel ≥ length` always suffices, each removal shortens the text). -/
def stripMarkersGo : Nat → List Char → List Char
  | 0, s => s
  | fuel + 1, s =>
    match findTokenSplit s with
    | some (u, _, v) => stripMarkersGo fuel (u ++ v)
    | none => s

/-- Strip all (possibly split-and-rejoined) inserted markers. -/
def stripMarkers (s : List Char) : List Char :=
  stripMarkersGo s.length s

theorem tryEach_isSome_of_mem {α β : Type} {l : List α} {f : α → Option β}
    {a : α} {b : β} (ha : a ∈ l) (hfa : f a = some b) :
    ∃ c, tryEach l f = some c := by
  induction l with
  | nil => simp at ha
  | cons x xs ih =>
    rw [tryEach]
    cases hfx : f x with
    | some c => exact ⟨c, by simp⟩
    | none =>
      rcases List.mem_cons.mp ha with rfl | hxs
      · rw [hfx] at hfa; cases hfa
      · simpa using ih hxs

theorem findTokenSplit_sound :
    ∀ {s u tok v}, findTokenSplit s = some (u, tok, v) →
      s = u ++ tok ++ v ∧ tok ∈ markerTokens := by
  intro s
  induction s with
  | nil => intro u tok v h; simp [findTokenSplit] at h
  | cons c rest ih =>
    intro u tok v h
    rw [findTokenSplit] at h
    cases hhead : tryEach markerTokens
        (fun tok => if tok.isPrefixOf (c :: rest) then some tok else none) with
    | some tok1 =>
      rw [hhead] at h
      simp only [Option.some.injEq, Prod.mk.injEq] at h
      rcases h with ⟨h1, h2, h3⟩
      rcases tryEach_eq_some _ _ _ hhead with ⟨a, hamem, haif⟩
      by_cases hap : a.isPrefixOf (c :: rest)
      · rw [if_pos hap] at haif
        have ha1 : a = tok1 := by simpa using haif
        subst ha1
        rcases List.isPrefixOf_iff_prefix.mp hap with ⟨w, hw⟩
        subst h1; subst h2
        constructor
        · rw [← h3, ← hw, List.nil_append]
          rw [show (a ++ w).drop a.length = w from List.drop_left a w]
        · exact hamem
      · rw [if_neg hap] at haif; cases haif
    | none =>
      rw [hhead] at h
      cases hrec : findTokenSplit rest with
      | some uv =>
        rcases uv with ⟨u1, tok1, v1⟩
        rw [hrec] at h
        simp only [Option.some.injEq, Prod.mk.injEq] at h
        rcases h with ⟨h1, h2, h3⟩
        rcases ih hrec with ⟨hsplit, hmem⟩
        subst h1; subst h2; subst h3
        exact ⟨by rw [hsplit]; simp, hmem⟩
      | none => rw [hrec] at h; cases h

theorem findTokenSplit_complete :
    ∀ {u tok v : List Char}, tok ∈ markerTokens →
      findTokenSplit (u ++ tok ++ v) ≠ none := by
  intro u
  induction u with
  | nil =>
    intro tok v htok h
    rcases marker_shape htok with ⟨t, rfl, _⟩
    rw [List.nil_append, List.cons_append, findTokenSplit] at h
    have hpre : ('<' :: t).isPrefixOf ('<' :: (t ++ v)) = true :=
      List.isPrefixOf_iff_prefix.mpr ⟨v, by simp⟩
    have hsome : (fun tk => if tk.isPrefixOf ('<' :: (t ++ v)) then some tk else none)
        ('<' :: t) = some ('<' :: t) := by
      simp [hpre]
    rcases @tryEach_isSome_of_mem (List Char) (List Char) markerTokens
        (fun tk => if tk.isPrefixOf ('<' :: (t ++ v)) then some tk else none)
        ('<' :: t) ('<' :: t) htok hsome with ⟨c0, hc0⟩
    rw [hc0] at h
    simp at h
  | cons c us ih =>
    intro tok v htok h
    rw [List.cons_append, List.cons_append, findTokenSplit] at h
    cases hhead : tryEach markerTokens
        (fun t => if t.isPrefixOf (c :: (us ++ tok ++ v)) then some t else none) with
    | some tok1 => rw [hhead] at h; cases h
    | none =>
      rw [hhead] at h
      cases hrec : findTokenSplit (us ++ tok ++ v) with
      | some uv => rw [hrec] at h; rcases uv with ⟨u1, tok1, v1⟩; cases h
      | none => exact ih htok hrec

/-- Stripping to a fixed point recovers the `<`-free base text from any
inserted-marker string. -/
theorem stripMarkersGo_of_ins {base : List Char} (hbase : ∀ c ∈ base, c ≠ '<') :
    ∀ fuel n s, Ins base n s → n ≤ fuel → stripMarkersGo fuel s = base := by
  intro fuel
  induction fuel with
  | zero =>
    intro n s hins hn
    have hn0 : n = 0 := Nat.le_zero.mp hn
    subst hn0
    cases hins
    rfl
  | succ fuel ih =>
    intro n s hins hn
    cases hfind : findTokenSplit s with
    | none =>
      cases hins with
      | refl => rw [stripMarkersGo, hfind]
      | step m a b tok htok hprev =>
        exact absurd hfind (findTokenSplit_complete htok)
    | some uv =>
      rcases uv with ⟨u0, tok0, v0⟩
      rcases findTokenSplit_sound hfind with ⟨hsplit, hmem⟩
      rcases ins_remove hbase hins hmem hsplit with ⟨m0, hm0, hins0⟩
      rw [stripMarkersGo, hfind]
      exact ih m0 _ hins0 (by omega)

/-! ### Each wrap pass only inserts whole marker tokens -/

theorem closeTok_mem : closeTok ∈ markerTokens := by
  simp [markerTokens]

/-- One `re.sub` highlight pass (any match function, backreference replacement
`openTok ++ match ++ closeTok`) turns its input into the input with finitely
many whole-marker insertions. -/
theorem subScan_wrap_ins (matchAt : Option Char → List Char → Option Nat)
    (css : List Char) (hcss : openTok css ∈ markerTokens) :
    ∀ (fuel : Nat) (prev : Option Char) (s : List Char),
      ∃ n, Ins s n
        (subScan matchAt (fun m => openTok css ++ m ++ closeTok) fuel prev s) := by
  intro fuel
  induction fuel with
  | zero =>
    intro prev s
    exact ⟨0, by rw [subScan.eq_def]; exact Ins.refl⟩
  | succ fuel ih =>
    intro prev s
    cases s with
    | nil => exact ⟨0, by rw [subScan]; exact Ins.refl⟩
    | cons c rest =>
      cases hm : matchAt prev (c :: rest) with
      | none =>
        simp only [subScan, hm]
        rcases ih (some c) rest with ⟨n, hn⟩
        exact ⟨n, ins_prepend [c] hn⟩
      | some k =>
        cases k with
        | zero =>
          simp only [subScan, hm]
          rcases ih (some c) rest with ⟨n, hn⟩
          exact ⟨n, ins_prepend [c] hn⟩
        | succ k =>
          simp only [subScan, hm]
          rcases ih ((c :: rest).get? k) ((c :: rest).drop (k + 1)) with ⟨n, hn⟩
          have h1 : Ins (c :: rest) n
              ((c :: rest).take (k + 1) ++
                subScan matchAt (fun m => openTok css ++ m ++ closeTok) fuel
                  ((c :: rest).get? k) ((c :: rest).drop (k + 1))) := by
            have h0 := ins_prepend ((c :: rest).take (k + 1)) hn
            rwa [List.take_append_drop] at h0
          have h2 := Ins.step n ((c :: rest).take (k + 1)) _ closeTok closeTok_mem h1
          have h3 := Ins.step (n + 1) [] _ (openTok css) hcss
            (by simpa using h2)
          exact ⟨n + 1 + 1, by simpa [List.append_assoc] using h3⟩

/-- A single-term wrap pass is an insertion of markers. -/
theorem wrap_term_ins (css ht term : List Char) (hcss : openTok css ∈ markerTokens) :
    ∃ n, Ins ht n (wrap_term css ht term) :=
  subScan_wrap_ins (wrapTermMatchAt term) css hcss ht.length none ht

/-- A whole `wrap_terms` pass (fold over the sorted term list) is an insertion
of markers. -/
theorem wrap_terms_ins (css : List Char) (hcss : openTok css ∈ markerTokens) :
    ∀ (l : List String) (ht : List Char),
      ∃ n, Ins ht n
        (l.foldl (fun h term =>
          if term.data.isEmpty then h else wrap_term css h term.data) ht) := by
  intro l
  induction l with
  | nil => intro ht; exact ⟨0, Ins.refl⟩
  | cons x xs ih =>
    intro ht
    rw [List.foldl_cons]
    by_cases hx : x.data.isEmpty
    · rw [if_pos hx]; exact ih ht
    · rw [if_neg hx]
      rcases wrap_term_ins css ht x.data hcss with ⟨n1, h1⟩
      rcases ih (wrap_term css ht x.data) with ⟨n2, h2⟩
      exact ⟨n1 + n2, ins_trans h1 h2⟩

theorem wrap_terms_ins' (css : List Char) (hcss : openTok css ∈ markerTokens)
    (terms : List String) (ht : List Char) :
    ∃ n, Ins ht n (wrap_terms ht terms css) :=
  wrap_terms_ins css hcss (sortTermsForWrap terms) ht

/-! ### The escape pass produces no `<` -/

theorem escLt_no_lt : ∀ s : List Char, ∀ c ∈ escLt s, c ≠ '<' := by
  intro s
  induction s with
  | nil => intro c hc; simp [escLt] at hc
  | cons a r ih =>
    intro c hc
    rw [escLt] at hc
    by_cases ha : a = '<'
    · rw [if_pos ha] at hc
      simp only [List.mem_cons] at hc
      rcases hc with rfl | rfl | rfl | rfl | hc
      · decide
      · decide
      · decide
      · decide
      · exact ih c hc
    · rw [if_neg ha] at hc
      simp only [List.mem_cons] at hc
      rcases hc with rfl | hc
      · exact ha
      · exact ih c hc

theorem escGt_no_lt {s : List Char} (hs : ∀ c ∈ s, c ≠ '<') :
    ∀ c ∈ escGt s, c ≠ '<' := by
  induction s with
  | nil => intro c hc; simp [escGt] at hc
  | cons a r ih =>
    intro c hc
    rw [escGt] at hc
    have ha' : a ≠ '<' := hs a (by simp)
    have hr : ∀ c ∈ r, c ≠ '<' := fun c hc => hs c (by simp [hc])
    by_cases ha : a = '>'
    · rw [if_pos ha] at hc
      simp only [List.mem_cons] at hc
      rcases hc with rfl | rfl | rfl | rfl | hc
      · decide
      · decide
      · decide
      · decide
      · exact ih hr c hc
    · rw [if_neg ha] at hc
      simp only [List.mem_cons] at hc
      rcases hc with rfl | hc
      · exact ha'
      · exact ih hr c hc

theorem escapeHtml_no_lt (s : List Char) : ∀ c ∈ escapeHtml s, c ≠ '<' :=
  escGt_no_lt (escLt_no_lt (escAmp s))

/-! ### Entity decoding inverts the escape pass -/

/-- Decode the three HTML entities the escape pass produces (`&amp;`, `&lt;`,
`&gt;`), leftmost first, copying every other character. -/
def decodeGo : Nat → List Char → List Char
  | 0, s => s
  | _ + 1, [] => []
  | fuel + 1, c :: r =>
    if ['&', 'a', 'm', 'p', ';'].isPrefixOf (c :: r) then
      '&' :: decodeGo fuel ((c :: r).drop 5)
    else if ['&', 'l', 't', ';'].isPrefixOf (c :: r) then
      '<' :: decodeGo fuel ((c :: r).drop 4)
    else if ['&', 'g', 't', ';'].isPrefixOf (c :: r) then
      '>' :: decodeGo fuel ((c :: r).drop 4)
    else c :: decodeGo fuel r

/-- Decode the character escapes for `&`, `<`, `>`. -/
def decodeEntities (s : List Char) : List Char :=
  decodeGo s.length s

/-- Per-character form of the escape pass. -/
def escChar (c : Char) : List Char :=
  if c = '&' then ['&', 'a', 'm', 'p', ';']
  else if c = '<' then ['&', 'l', 't', ';']
  else if c = '>' then ['&', 'g', 't', ';']
  else [c]

theorem escAmp_cons (c : Char) (r : List Char) :
    escAmp (c :: r) = (if c = '&' then ['&', 'a', 'm', 'p', ';'] else [c]) ++ escAmp r := by
  by_cases hc : c = '&' <;> simp [escAmp, hc]

theorem escLt_append (a b : List Char) : escLt (a ++ b) = escLt a ++ escLt b := by
  induction a with
  | nil => simp [escLt]
  | cons c r ih =>
    by_cases hc : c = '<' <;> simp [escLt, hc, ih]

theorem escGt_append (a b : List Char) : escGt (a ++ b) = escGt a ++ escGt b := by
  induction a with
  | nil => simp [escGt]
  | cons c r ih =>
    by_cases hc : c = '>' <;> simp [escGt, hc, ih]

theorem escapeHtml_cons (c : Char) (r : List Char) :
    escapeHtml (c :: r) = escChar c ++ escapeHtml r := by
  rw [escapeHtml, escAmp_cons]
  by_cases hamp : c = '&'
  · subst hamp
    rw [if_pos rfl, escLt_append, escGt_append]
    have h1 : escLt ['&', 'a', 'm', 'p', ';'] = ['&', 'a', 'm', 'p', ';'] := by
      simp [escLt]
    have h2 : escGt ['&', 'a', 'm', 'p', ';'] = ['&', 'a', 'm', 'p', ';'] := by
      simp [escGt]
    rw [h1, h2, escChar, if_pos rfl, escapeHtml]
  · rw [if_neg hamp, escLt_append, escGt_append]
    by_cases hlt : c = '<'
    · subst hlt
      have h1 : escLt ['<'] = ['&', 'l', 't', ';'] := by simp [escLt]
      have h2 : escGt ['&', 'l', 't', ';'] = ['&', 'l', 't', ';'] := by
        simp [escGt]
      rw [h1, h2, escChar, if_neg hamp, if_pos rfl, escapeHtml]
    · by_cases hgt : c = '>'
      · subst hgt
        have h1 : escLt ['>'] = ['>'] := by simp [escLt]
        have h2 : escGt ['>'] = ['&', 'g', 't', ';'] := by simp [escGt]
        rw [h1, h2, escChar, if_neg hamp, if_neg hlt, if_pos rfl, escapeHtml]
      · have h1 : escLt [c] = [c] := by simp [escLt, hlt]
        have h2 : escGt [c] = [c] := by simp [escGt, hgt]
        rw [h1, h2, escChar, if_neg hamp, if_neg hlt, if_neg hgt, escapeHtml]

theorem decodeGo_escape :
    ∀ (l : List Char) (fuel : Nat), l.length ≤ fuel →
      decodeGo fuel (escapeHtml l) = l := by
  intro l
  induction l with
  | nil =>
    intro fuel _
    have he : escapeHtml ([] : List Char) = [] := rfl
    rw [he]
    cases fuel <;> rw [decodeGo.eq_def]
  | cons c r ih =>
    intro fuel hfuel
    cases fuel with
    | zero => simp at hfuel
    | succ fuel =>
      have hfuel' : r.length ≤ fuel := by simpa using hfuel
      rw [escapeHtml_cons, escChar]
      by_cases hamp : c = '&'
      · subst hamp
        rw [if_pos rfl, List.cons_append, decodeGo]
        have hpre : (['&', 'a', 'm', 'p', ';'] : List Char).isPrefixOf
            ('&' :: (['a', 'm', 'p', ';'] ++ escapeHtml r)) = true := by
          simp [List.isPrefixOf]
        rw [if_pos hpre]
        simp only [List.drop_succ_cons, List.drop_zero, List.cons_append,
          List.nil_append]
        rw [ih fuel hfuel']
      · by_cases hlt : c = '<'
        · subst hlt
          rw [if_neg hamp, if_pos rfl, List.cons_append, decodeGo]
          have hpre1 : (['&', 'a', 'm', 'p', ';'] : List Char).isPrefixOf
              ('&' :: (['l', 't', ';'] ++ escapeHtml r)) = false := by
            simp [List.isPrefixOf]
          have hpre2 : (['&', 'l', 't', ';'] : List Char).isPrefixOf
              ('&' :: (['l', 't', ';'] ++ escapeHtml r)) = true := by
            simp [List.isPrefixOf]
          rw [if_neg (by simp [hpre1]), if_pos hpre2]
          simp only [List.drop_succ_cons, List.drop_zero, List.cons_append,
            List.nil_append]
          rw [ih fuel hfuel']
        · by_cases hgt : c = '>'
          · subst hgt
            rw [if_neg hamp, if_neg hlt, if_pos rfl, List.cons_append, decodeGo]
            have hpre1 : (['&', 'a', 'm', 'p', ';'] : List Char).isPrefixOf
                ('&' :: (['g', 't', ';'] ++ escapeHtml r)) = false := by
              simp [List.isPrefixOf]
            have hpre2 : (['&', 'l', 't', ';'] : List Char).isPrefixOf
                ('&' :: (['g', 't', ';'] ++ escapeHtml r)) = false := by
              simp [List.isPrefixOf]
            have hpre3 : (['&', 'g', 't', ';'] : List Char).isPrefixOf
                ('&' :: (['g', 't', ';'] ++ escapeHtml r)) = true := by
              simp [List.isPrefixOf]
            rw [if_neg (by simp [hpre1]), if_neg (by simp [hpre2]), if_pos hpre3]
            simp only [List.drop_succ_cons, List.drop_zero, List.cons_append,
              List.nil_append]
            rw [ih fuel hfuel']
          · rw [if_neg hamp, if_neg hlt, if_neg hgt, List.singleton_append,
              decodeGo]
            have hamp' : (('&' : Char) == c) = false :=
              beq_eq_false_iff_ne.mpr (Ne.symm hamp)
            have hpre1 : (['&', 'a', 'm', 'p', ';'] : List Char).isPrefixOf
                (c :: escapeHtml r) = false := by
              show ((('&' : Char) == c) &&
                (['a', 'm', 'p', ';'] : List Char).isPrefixOf (escapeHtml r)) = false
              rw [hamp']
              rfl
            have hpre2 : (['&', 'l', 't', ';'] : List Char).isPrefixOf
                (c :: escapeHtml r) = false := by
              show ((('&' : Char) == c) &&
                (['l', 't', ';'] : List Char).isPrefixOf (escapeHtml r)) = false
              rw [hamp']
              rfl
            have hpre3 : (['&', 'g', 't', ';'] : List Char).isPrefixOf
                (c :: escapeHtml r) = false := by
              show ((('&' : Char) == c) &&
                (['g', 't', ';'] : List Char).isPrefixOf (escapeHtml r)) = false
              rw [hamp']
              rfl
            rw [if_neg (by rw [hpre1]; decide), if_neg (by rw [hpre2]; decide),
              if_neg (by rw [hpre3]; decide)]
            rw [ih fuel hfuel']

theorem decodeEntities_escape (l : List Char) :
    decodeEntities (escapeHtml l) = l := by
  have hlen : l.length ≤ (escapeHtml l).length := by
    induction l with
    | nil => simp
    | cons c r ih =>
      rw [escapeHtml_cons]
      have hc : 1 ≤ (escChar c).length := by
        rw [escChar]
        by_cases h1 : c = '&'
        · simp [h1]
        · by_cases h2 : c = '<'
          · simp [h1, h2]
          · by_cases h3 : c = '>'
            · simp [h1, h2, h3]
            · simp [h1, h2, h3]
      simp only [List.length_append, List.length_cons]
      omega
  exact decodeGo_escape l _ hlen

/-- **C8.** Annotation never corrupts the literal content: the produced markup
is the fixed legend/`<pre>` chrome around the three wrap passes (diseases, then
symptoms, then medications) over the escaped text, and for every text and every
three term sets, stripping all inserted category markers (`<span
class='...'>`/`</span>`) from that wrapped core and then decoding the `&`, `<`,
`>` character escapes yields exactly the original text — in particular no later
pass re-escapes or corrupts text wrapped by an earlier pass. -/
theorem annotation_roundtrip (t : String) (ds ss ms : List String) :
    buildHighlight t.data ds ss ms =
      legendPre ++
        wrap_terms (wrap_terms (wrap_terms (escapeHtml t.data) ds "disease".data)
          ss "symptom".data) ms "med".data ++ "</pre>".data ∧
    decodeEntities (stripMarkers
      (wrap_terms (wrap_terms (wrap_terms (escapeHtml t.data) ds "disease".data)
        ss "symptom".data) ms "med".data)) = t.data := by
  constructor
  · rfl
  · rcases wrap_terms_ins' "disease".data (by simp [markerTokens]) ds
      (escapeHtml t.data) with ⟨n1, h1⟩
    rcases wrap_terms_ins' "symptom".data (by simp [markerTokens]) ss _
      with ⟨n2, h2⟩
    rcases wrap_terms_ins' "med".data (by simp [markerTokens]) ms _
      with ⟨n3, h3⟩
    have hins := ins_trans (ins_trans h1 h2) h3
    have hstrip := stripMarkersGo_of_ins (escapeHtml_no_lt t.data) _ _ _
      hins (ins_count_le hins)
    rw [stripMarkers, hstrip]
    exact decodeEntities_escape t.data

/-! ### Support for the label-behaviour analysis of `deidentify_text` -/

theorem subScan_nil (matchAt : Option Char → List Char → Option Nat)
    (rep : List Char → List Char) (fuel : Nat) (prev : Option Char) :
    subScan matchAt rep fuel prev [] = [] := by
  cases fuel <;> rfl

/-- If the whole text matches at position 0, one `re.sub` pass is just the
replacement of the whole text. -/
theorem subScan_full_match (matchAt : Option Char → List Char → Option Nat)
    (rep : List Char → List Char) {s : List Char}
    (hne : s ≠ []) (h : matchAt none s = some s.length) :
    subScan matchAt rep s.length none s = rep s := by
  cases s with
  | nil => exact absurd rfl hne
  | cons c rest =>
    have hlen : (c :: rest).length = rest.length + 1 := rfl
    rw [hlen] at h
    simp only [hlen, subScan, h]
    rw [show rest.length + 1 = (c :: rest).length from rfl, List.take_length,
      List.drop_length, subScan_nil, List.append_nil]

/-- If the pattern matches nowhere (neither at the scan's starting position nor
at any later position), one `re.sub` pass is the identity. -/
theorem subScan_no_match (matchAt : Option Char → List Char → Option Nat)
    (rep : List Char → List Char) :
    ∀ (fuel : Nat) (prev : Option Char) (s : List Char),
      matchAt prev s = none →
      (∀ (c : Char) (t : List Char), c :: t <:+ s → matchAt (some c) t = none) →
      subScan matchAt rep fuel prev s = s := by
  intro fuel
  induction fuel with
  | zero => intro prev s _ _; rfl
  | succ fuel ih =>
    intro prev s h0 hmid
    cases s with
    | nil => rfl
    | cons c rest =>
      simp only [subScan, h0]
      rw [ih (some c) rest (hmid c rest (List.suffix_refl _))]
      intro c' t' hsuf
      exact hmid c' t' (hsuf.trans (List.suffix_cons c rest))

/-- `(?m)^` fails mid-line: the name-line pattern cannot match after a
non-newline character. -/
theorem nameLineMatchAt_mid {c : Char} (hc : c ≠ '\n') (t : List Char) :
    nameLineMatchAt (some c) t = none := by
  simp [nameLineMatchAt, lineStart, hc]

theorem noDigit_allDigitsTake {s : List Char} (h : ∀ c ∈ s, c.isDigit = false)
    {n : Nat} (hn : 0 < n) : allDigitsTake n s = false := by
  rw [allDigitsTake, allDigitsSlice]
  simp only [List.drop_zero]
  by_contra hcontra
  rw [Bool.not_eq_false, Bool.and_eq_true] at hcontra
  rcases hcontra with ⟨hlen, hall⟩
  cases s with
  | nil =>
    simp only [List.take_nil, List.length_nil, decide_eq_true_eq] at hlen
    omega
  | cons a r =>
    have ha : a ∈ (a :: r).take n := by
      cases n with
      | zero => omega
      | succ m => simp [List.take_succ_cons]
    have hd := List.all_eq_true.mp hall a ha
    rw [h a (by simp)] at hd
    cases hd

theorem phoneCore_none (s : List Char) (h : ∀ c ∈ s, c.isDigit = false) :
    phoneCore s = none := by
  have h10 : allDigitsTake 10 s = false := noDigit_allDigitsTake h (by omega)
  have h3 : allDigitsTake 3 s = false := noDigit_allDigitsTake h (by omega)
  simp [phoneCore, h10, h3]

theorem plusStep_none {a : Char} {r : List Char} (ha : a ≠ '+') :
    (match a :: r with
     | '+' :: r2 => (some (1, r2) : Option (Nat × List Char))
     | _ => none) = none := by
  split
  · rename_i r2 heq
    injection heq with h1 h2
    exact absurd h1 ha
  · rfl

theorem phoneTryWith_none (s : List Char) (h : ∀ c ∈ s, c.isDigit = false)
    (usePlus : Bool) (nd : Nat) (hnd : 0 < nd) (useSep : Bool) :
    phoneTryWith s usePlus nd useSep = none := by
  rw [phoneTryWith.eq_def]
  by_cases hu : usePlus = true
  · rw [if_pos hu]
    cases s with
    | nil => rfl
    | cons a r =>
      by_cases ha : a = '+'
      · subst ha
        rw [show (match ('+' :: r : List Char) with
            | '+' :: r2 => (some (1, r2) : Option (Nat × List Char))
            | _ => none) = some (1, r) from rfl]
        simp only []
        rw [noDigit_allDigitsTake (fun c hc => h c (List.mem_cons_of_mem _ hc)) hnd]
        try rfl
      · rw [plusStep_none ha]
  · rw [if_neg hu]
    simp only []
    rw [noDigit_allDigitsTake h hnd]
    try rfl

theorem phoneMatchAt_none (s : List Char) (h : ∀ c ∈ s, c.isDigit = false)
    (prev : Option Char) : phoneMatchAt prev s = none := by
  rw [phoneMatchAt]
  by_cases hb : !pyBoundary prev s.head?
  · rw [if_pos hb]
  · rw [if_neg hb,
      phoneTryWith_none s h true 3 (by omega) true,
      phoneTryWith_none s h true 3 (by omega) false,
      phoneTryWith_none s h true 2 (by omega) true,
      phoneTryWith_none s h true 2 (by omega) false,
      phoneTryWith_none s h true 1 (by omega) true,
      phoneTryWith_none s h true 1 (by omega) false,
      phoneTryWith_none s h false 3 (by omega) true,
      phoneTryWith_none s h false 3 (by omega) false,
      phoneTryWith_none s h false 2 (by omega) true,
      phoneTryWith_none s h false 2 (by omega) false,
      phoneTryWith_none s h false 1 (by omega) true,
      phoneTryWith_none s h false 1 (by omega) false,
      phoneCore_none s h]
    rfl

theorem emailMatchAt_no_at (s : List Char) (h : '@' ∉ s) (prev : Option Char) :
    emailMatchAt prev s = none := by
  rw [emailMatchAt]
  by_cases hb : !pyBoundary prev s.head?
  · rw [if_pos hb]
  · rw [if_neg hb]
    by_cases hl : countWhile isLocalChar s = 0
    · rw [if_pos hl]
    · rw [if_neg hl]
      cases hh : (s.drop (countWhile isLocalChar s)).head? with
      | none => rfl
      | some c =>
        have hcs : c ∈ s := by
          have hmem : c ∈ s.drop (countWhile isLocalChar s) :=
            List.mem_of_mem_head? (by rw [hh]; rfl)
          exact (List.drop_subset _ s) hmem
        have hc : c ≠ '@' := fun hc' => h (hc' ▸ hcs)
        split
        · rename_i heq
          injection heq with h1
          exact absurd h1 hc
        · rfl

/-- **C5 (amended).** Label behaviour of `deidentify_text` on single-line
inputs.  (i) Any text fully matched by the name-line pattern is replaced by the
fixed line `Patient Name: [REDACTED]` — the original label text and case are
NOT preserved.  (ii) Any text fully matched by the identifier-line pattern
(single-line, digit-free and `@`-free so the phone/email passes cannot touch
it, and not itself a name line) is replaced by its prefix up to the first
colon — the label, with text and case preserved, for the `:` separator; the
whole line including the value for the `-` separator — followed by
`: [REDACTED]`.  (iii) Concretely, the dash form keeps the value:
`MRN- 123` becomes `MRN- 123: [REDACTED]`, not `MRN: [REDACTED]`. -/
theorem deidentify_label_behaviour :
    (∀ L : List Char, L ≠ [] → nameLineMatchAt none L = some L.length →
      deidentify_text ⟨L⟩ = "Patient Name: [REDACTED]") ∧
    (∀ L : List Char, L ≠ [] → '\n' ∉ L → (∀ c ∈ L, c.isDigit = false) →
      '@' ∉ L → nameLineMatchAt none L = none →
      idLineMatchAt none L = some L.length →
      deidentify_text ⟨L⟩ =
        ⟨L.takeWhile (fun c => c ≠ ':') ++ ": [REDACTED]".data⟩) ∧
    deidentify_text "MRN- 123" = "MRN- 123: [REDACTED]" := by
  refine ⟨?_, ?_, by rfl⟩
  · intro L hne hm
    have h1 : name_sub L = "Patient Name: [REDACTED]".data := by
      rw [name_sub, subScan_full_match _ _ hne hm]
    rw [deidentify_text, h1]
    rfl
  · intro L hne hnl hdig hat hname hid
    have h1 : name_sub L = L := by
      rw [name_sub]
      exact subScan_no_match _ _ _ _ _ hname
        (fun c t hsuf => nameLineMatchAt_mid
          (fun hc => hnl (hc ▸ hsuf.subset (by simp))) t)
    have h2 : phone_sub L = L := by
      rw [phone_sub]
      exact subScan_no_match _ _ _ _ _ (phoneMatchAt_none L hdig none)
        (fun c t hsuf => phoneMatchAt_none t
          (fun c' hc' => hdig c' (hsuf.subset (by simp [hc']))) (some c))
    have h3 : email_sub L = L := by
      rw [email_sub]
      exact subScan_no_match _ _ _ _ _ (emailMatchAt_no_at L hat none)
        (fun c t hsuf => emailMatchAt_no_at t
          (fun hc' => hat (hsuf.subset (by simp [hc']))) (some c))
    have h4 : id_sub L = L.takeWhile (fun c => c ≠ ':') ++ ": [REDACTED]".data := by
      rw [id_sub, subScan_full_match _ _ hne hid]
    rw [deidentify_text, h1, h2, h3, h4]

/-- Concrete instantiation of the two universal parts of the label-behaviour
theorem: a matched name line, and a matched colon-separator identifier line. -/
theorem deidentify_label_behaviour_witness :
    deidentify_text ⟨"Name: John Doe".data⟩ = "Patient Name: [REDACTED]" ∧
    deidentify_text ⟨"MRN: X".data⟩ =
      ⟨("MRN: X".data).takeWhile (fun c => c ≠ ':') ++ ": [REDACTED]".data⟩ :=
  ⟨deidentify_label_behaviour.1 "Name: John Doe".data (by decide) (by decide),
   deidentify_label_behaviour.2.1 "MRN: X".data (by decide) (by decide)
     (by decide) (by decide) (by decide) (by decide)⟩

end MedApp
